import Mathlib

/-!
Verification development for the toolset-detection core of the
`vscode-cpptools` fork: a shallow embedding of the configuration data model
(JSON-like documents), the object merger (`objectMerge.ts` / `worker.ts`),
the action parser (`strings.ts`), the analysis engine
(`Toolset.getIntellisenseConfiguration` and its helpers), and the public
facade guards (`detectToolset.ts`).

JavaScript objects are modelled as insertion-ordered association lists;
`undefined` field values are modelled as absent keys (reads of a missing key
and of an `undefined`-valued key are indistinguishable in the operations the
code performs).  External effects (filesystem probes, subprocess execution,
regular-expression matching, template rendering) are passed in as explicit
function parameters, since their implementations live outside the analysed
sources; loops whose termination is not structural carry an explicit fuel
argument, `none` meaning the fuel was exhausted before the loop finished.
-/

namespace CppTools

/-- A JSON-like document value: the dynamic values the TypeScript code
manipulates (configurations, definition fragments, captured data). -/
inductive Value where
  | vnull : Value
  | vbool : Bool → Value
  | vnum : Int → Value
  | vstr : String → Value
  | varr : List Value → Value
  | vobj : List (String × Value) → Value

mutual
/-- Structural (deep) equality of values, element by element and field by
field in order: the JS `deepEqual` notion behind the spec's "deeply
equal". -/
def veq : Value → Value → Bool
  | .vnull, .vnull => true
  | .vbool a, .vbool b => a == b
  | .vnum a, .vnum b => a == b
  | .vstr a, .vstr b => a == b
  | .varr as, .varr bs => veqList as bs
  | .vobj as, .vobj bs => veqFields as bs
  | _, _ => false

/-- Elementwise deep equality of arrays. -/
def veqList : List Value → List Value → Bool
  | [], [] => true
  | a :: as, b :: bs => veq a b && veqList as bs
  | _, _ => false

/-- Fieldwise deep equality of objects (same keys in the same order). -/
def veqFields : List (String × Value) → List (String × Value) → Bool
  | [], [] => true
  | (k, a) :: as, (k2, b) :: bs => k == k2 && veq a b && veqFields as bs
  | _, _ => false
end

/-! ### String helpers

Core's position-based `String` functions do not reduce inside the kernel,
so the string operations the embedded code needs are implemented over
`List Char`; each mirrors the corresponding JS/`String` function exactly. -/

/-- Does the second list prefix the first (`startsWith` on characters)? -/
def listStarts : List Char → List Char → Bool
  | _, [] => true
  | [], _ :: _ => false
  | a :: as, b :: bs => a == b && listStarts as bs

/-- `s.startsWith(pfx)`. -/
def sStartsWith (s pfx : String) : Bool := listStarts s.toList pfx.toList

/-- `s.endsWith(sfx)`. -/
def sEndsWith (s sfx : String) : Bool :=
  listStarts s.toList.reverse sfx.toList.reverse

/-- `s.includes(c)` for a single character. -/
def sContains (s : String) (c : Char) : Bool := s.toList.contains c

/-- `s.slice(n)` / `String.drop`. -/
def sDrop (s : String) (n : Nat) : String := String.mk (s.toList.drop n)

/-- `s.toLowerCase()`. -/
def sToLower (s : String) : String := String.mk (s.toList.map Char.toLower)

/-- `s.trim()`: strip leading and trailing whitespace. -/
def sTrim (s : String) : String :=
  String.mk
    (((s.toList.dropWhile Char.isWhitespace).reverse.dropWhile
      Char.isWhitespace).reverse)

/-- `s.takeWhile(p)` as a string. -/
def sTakeWhileStr (s : String) (p : Char → Bool) : String :=
  String.mk (s.toList.takeWhile p)

/-- Split a character list at every separator (JS `split`: leading,
trailing and adjacent separators give empty pieces; no separator gives the
whole list as the one piece). -/
def splitListBy (p : Char → Bool) : List Char → List (List Char)
  | [] => [[]]
  | c :: cs =>
    if p c then [] :: splitListBy p cs
    else
      match splitListBy p cs with
      | g :: gs => (c :: g) :: gs
      | [] => [[c]]

/-- `s.split(predicate)`. -/
def sSplitBy (s : String) (p : Char → Bool) : List String :=
  (splitListBy p s.toList).map String.mk

/-- `s.split(c)` for a one-character separator. -/
def sSplitOnChar (s : String) (c : Char) : List String :=
  sSplitBy s (fun x => x == c)

/-- `l.join(sep)` / `String.intercalate`. -/
def joinBy (sep : String) : List String → String
  | [] => ""
  | [a] => a
  | a :: rest => a ++ sep ++ joinBy sep rest

/-- Association-list lookup: JavaScript property read `o[k]` (absent key
reads as `undefined`, modelled by `none`). -/
def olookup {β : Type} : List (String × β) → String → Option β
  | [], _ => none
  | (k, v) :: rest, key => if k = key then some v else olookup rest key

/-- JavaScript property write `o[k] = v` (also `Map.set`): updates the value
in place when the key exists (keeping its position), otherwise appends the
key at the end. -/
def oset {β : Type} : List (String × β) → String → β → List (String × β)
  | [], key, v => [(key, v)]
  | (k, w) :: rest, key, v =>
    if k = key then (key, v) :: rest else (k, w) :: oset rest key v

/-- JavaScript `delete o[k]`: removes the key, preserving the order of the
remaining keys. -/
def odelete {β : Type} : List (String × β) → String → List (String × β)
  | [], _ => []
  | (k, w) :: rest, key => if k = key then rest else (k, w) :: odelete rest key

/-- Property read on an arbitrary value: non-objects have no own properties
in the operations the code performs. -/
def vget : Value → String → Option Value
  | .vobj fields, k => olookup fields k
  | _, _ => none

/-- Property write on an arbitrary value; writes to non-objects are dropped
(the code never usefully writes a property of a primitive). -/
def vset : Value → String → Value → Value
  | .vobj fields, k, v => .vobj (oset fields k v)
  | w, _, _ => w

/-- JavaScript truthiness of a `Value` (`undefined` is handled at the
`Option` layer by `truthyO`). -/
def truthy : Value → Bool
  | .vnull => false
  | .vbool b => b
  | .vnum n => !(n = 0)
  | .vstr s => !(s = "")
  | .varr _ => true
  | .vobj _ => true

/-- Truthiness of a possibly-`undefined` value. -/
def truthyO : Option Value → Bool
  | none => false
  | some v => truthy v

/-- `strings(input)` from `strings.ts`: coerce a one-or-more value to a list.
Falsy input gives `[]`, a string gives a singleton, an array is passed
through unchanged; other truthy scalars are wrapped in a singleton (the
source would return them uncast). -/
def stringsOf (v : Value) : List Value :=
  if truthy v = false then []
  else match v with
    | .vstr s => [.vstr s]
    | .varr l => l
    | w => [w]

/-- `clone` from `objectMerge.ts` is a JSON round-trip; on this model of
documents (no `undefined`, no functions) it is the identity. -/
def cloneV (v : Value) : Value := v

/-- `isMergeble` from `objectMerge.ts`: a non-null object that is not an
array. -/
def isMergeble : Value → Bool
  | .vobj _ => true
  | _ => false

/-- `Array.prototype.includes` over values (the JS `===` on the strings
this is used with coincides with deep equality; object identity is not
modelled). -/
def containsV (l : List Value) (e : Value) : Bool :=
  l.any (fun x => veq x e)

/-- One level of `Array.prototype.flat()`: splice nested arrays in. -/
def flat1 : List Value → List Value
  | [] => []
  | .varr l :: rest => l ++ flat1 rest
  | v :: rest => v :: flat1 rest

/-- The BEL sentinel character (U+0007) used by `expandArray`. -/
def belChar : Char := Char.ofNat 7

mutual
/-- `expandArray` from `objectMerge.ts`: recursively flatten arrays and
pre-split BEL-containing strings into lists. -/
def expandArray : Value → Value
  | .varr l => .varr (flat1 (expandList l))
  | .vstr s =>
    if sContains s belChar then .varr ((sSplitBy s (· = belChar)).map .vstr)
    else .vstr s
  | v => v

/-- Elementwise `expandArray` over a list (the `value.map(expandArray)`
step). -/
def expandList : List Value → List Value
  | [] => []
  | v :: rest => expandArray v :: expandList rest
end

/-- The `remove:`-prefixed branch of the merge loop.  `Except.error` models
a thrown `TypeError`: the source line
`target.key[key] = target[key].filter(...)` writes through the literal
property `"key"` of the target, and throws when that property is
`undefined` or `null`; when it is some other non-object the write is lost
and the target is unchanged. -/
def mergeRemove (tf : List (String × Value)) (key : String) (value : Value) :
    Except String (List (String × Value)) :=
  let k := sDrop key 7
  match olookup tf k with
  | some tv =>
    if truthy tv then
      let v := stringsOf value
      match tv with
      | .varr items =>
        let filtered : Value := .varr (items.filter (fun e => !(containsV v e)))
        match olookup tf "key" with
        | some (.vobj ko) => .ok (oset tf "key" (.vobj (oset ko k filtered)))
        | some .vnull => .error "TypeError: cannot set properties of null"
        | some _ => .ok tf
        | none => .error "TypeError: cannot set properties of undefined"
      | .vstr s =>
        if containsV v (.vstr s) then .ok (odelete tf k) else .ok tf
      | _ => .ok tf
    else .ok tf
  | none => .ok tf

/-- The array-source case of the merge loop: append (or prepend) to an array
target, promote a string target (with the source slip `[value, ...value]`
that embeds the whole source array as the first element), assign a copy when
the target key is absent, and do nothing for other targets. -/
def mergeArrayValue (tf : List (String × Value)) (key : String)
    (prepend : Bool) (l : List Value) : List (String × Value) :=
  match olookup tf key with
  | none => oset tf key (cloneV (.varr l))
  | some (.varr tl) => oset tf key (.varr (if prepend then l ++ tl else tl ++ l))
  | some (.vstr _) => oset tf key (.varr (.varr l :: l))
  | some _ => tf

mutual
/-- The entry loop of `mergeObjects(target, source)` from `objectMerge.ts`
(`for (let [key, value] of Object.entries(dataToMerge))`), written as a
pure function from the mutated target's fields to their final value.
`remove:`-prefixed keys go to `mergeRemove`, every other entry to
`mergeAssign`. -/
def mergeFields (tf : List (String × Value)) :
    List (String × Value) → Except String (List (String × Value))
  | [] => .ok tf
  | (key, value) :: rest =>
    match (if sStartsWith key "remove:" then mergeRemove tf key value
           else mergeAssign tf key value) with
    | .ok tf' => mergeFields tf' rest
    | .error e => .error e

/-- Merge one non-`remove:` source entry, following the branch order of the
source loop body.  `value = expandArray(value)` is applied per shape (it is
the identity on `null`, booleans, numbers and objects, turns a
BEL-containing string into a list, and flattens arrays); an absent target
key receives a copy of the expanded value; a `null` source deletes the
target key; arrays go to `mergeArrayValue`; a source object recurses into an
object target (`mergeObjects(target[key], value)`, which mutates
`target[key]` in place and leaves non-object targets unchanged); any other
scalar overwrites. -/
def mergeAssign (tf : List (String × Value)) (key : String) :
    Value → Except String (List (String × Value))
  | .vnull =>
    let prepend : Bool := sStartsWith key "prepend:"
    let key := if prepend then sDrop key 8 else key
    (match olookup tf key with
     | none => .ok (oset tf key (cloneV .vnull))
     | some _ => .ok (odelete tf key))
  | .vstr s =>
    let prepend : Bool := sStartsWith key "prepend:"
    let key := if prepend then sDrop key 8 else key
    if sContains s belChar then
      .ok (mergeArrayValue tf key prepend ((sSplitBy s (· = belChar)).map .vstr))
    else .ok (oset tf key (.vstr s))
  | .varr l =>
    let prepend : Bool := sStartsWith key "prepend:"
    let key := if prepend then sDrop key 8 else key
    .ok (mergeArrayValue tf key prepend (flat1 (expandList l)))
  | .vobj vf =>
    let prepend : Bool := sStartsWith key "prepend:"
    let key := if prepend then sDrop key 8 else key
    (match olookup tf key with
     | none => .ok (oset tf key (cloneV (.vobj vf)))
     | some (.vobj tvf) =>
       (match mergeFields tvf vf with
        | .ok merged => .ok (oset tf key (.vobj merged))
        | .error e => .error e)
     | some _ => .ok tf)
  | v =>
    let prepend : Bool := sStartsWith key "prepend:"
    let key := if prepend then sDrop key 8 else key
    (match olookup tf key with
     | none => .ok (oset tf key (cloneV v))
     | some _ => .ok (oset tf key v))
end

/-- `mergeObjects(target, source)` from `objectMerge.ts` (the object merger,
C2 of the spec): when both sides are mergeble objects the source's entries
are merged into the target; otherwise the target is returned unchanged.
`Except.error` models a thrown `TypeError`. -/
def mergeObjects (target source : Value) : Except String Value :=
  match target, source with
  | .vobj tf, .vobj sf =>
    match mergeFields tf sf with
    | .ok tf' => .ok (.vobj tf')
    | .error e => .error e
  | t, _ => .ok t

/-! ### Action parser (`getActions` from `strings.ts`) -/

/-- One decoded action of a `discover`/`analysis` block: the coerced action
name (empty when the key matched no table entry), the block value, the
retained flags, the computed priority, and the positional index of the key. -/
structure ActionEntry where
  action : String
  block : Value
  flags : List (String × Value)
  priority : Int
  index : Nat

/-- JavaScript `parseInt` on a string: skip leading whitespace, optional
sign, then a leading run of decimal digits; `none` models `NaN`. -/
def parseIntJS (s : String) : Option Int :=
  let t := sTrim s
  let (sign, digs) :=
    if sStartsWith t "-" then ((-1 : Int), sDrop t 1)
    else if sStartsWith t "+" then ((1 : Int), sDrop t 1)
    else ((1 : Int), t)
  let ds := (digs.toList.takeWhile Char.isDigit)
  if ds.isEmpty then none
  else some (sign * (ds.foldl (fun n c => n * 10 + ((c.toNat : Int) - 48)) 0))

/-- One comma-separated piece of the flag text of a key: split on the first
`=`; drop empty keys; lower-case and trim the key; keep only keys in the
action's legal-flag list; a flag without `=` gets the value `true`,
otherwise its trimmed text. -/
def parseFlagsStep (validFlags : List String) (acc : List (String × Value))
    (part : String) : List (String × Value) :=
  let kv := sSplitOnChar part '='
  let k0 := kv.headD ""
  if k0 = "" then acc
  else
    let k := sTrim (sToLower k0)
    if validFlags.contains k then
      let v : Value :=
        match kv with
        | _ :: v :: _ => .vstr (sTrim v)
        | _ => .vbool true
      oset acc k v
    else acc

/-- Flag extraction of `getActions`: fold the comma-separated pieces of the
flag text into a flag map. -/
def parseFlags (validFlags : List String) (parts : List String) :
    List (String × Value) :=
  parts.foldl (parseFlagsStep validFlags) []

/-- The priority computation of `getActions`:
`parseInt(flags.get('priority') ?? '0') || ndx`.  An absent flag parses as
0 which is falsy, a `NaN` is falsy, and a parsed 0 is falsy — all three
fall back to the positional index. -/
def flagPriority (flags : List (String × Value)) (ndx : Nat) : Int :=
  match olookup flags "priority" with
  | some (.vstr s) =>
    match parseIntJS s with
    | some n => if n = 0 then (ndx : Int) else n
    | none => (ndx : Int)
  | _ => (ndx : Int)

/-- Decode one key of an action mapping (the body of the `Object.entries`
map in `getActions`).  The key grammar is a leading run of ASCII letters (at
least four, of which the first four select the action), an optional `:`,
flag text up to the first `#`, and an optional `#comment`.  A key with fewer
than four leading letters makes the source regex fail, after which
`act.toLowerCase()` throws a `TypeError`, modelled as `Except.error`. -/
def mkActionEntry (actions : List (String × List String)) (ndx : Nat)
    (expression : String) (block : Value) : Except String ActionEntry :=
  let letters : List Char := expression.toList.takeWhile (fun c => c.isAlpha)
  if letters.length < 4 then
    .error "TypeError: cannot read properties of undefined"
  else
    let act : String := String.mk (letters.take 4)
    let rest := sDrop expression letters.length
    let rest := if sStartsWith rest ":" then sDrop rest 1 else rest
    let flagStr := sTakeWhileStr rest (fun c => !(c = '#'))
    let row :=
      (actions.find? (fun r => sStartsWith r.1 (sToLower act))).getD ("", [])
    let flags := parseFlags row.2 (sSplitOnChar flagStr ',')
    .ok { action := row.1, block := block, flags := flags,
          priority := flagPriority flags ndx, index := ndx }

/-- Decode all keys of an action mapping in order, numbering them from
`ndx`. -/
def mkActionEntries (actions : List (String × List String)) :
    Nat → List (String × Value) → Except String (List ActionEntry)
  | _, [] => .ok []
  | ndx, (k, b) :: rest =>
    match mkActionEntry actions ndx k b with
    | .error e => .error e
    | .ok e =>
      match mkActionEntries actions (ndx + 1) rest with
      | .ok es => .ok (e :: es)
      | .error er => .error er

/-- Stable insertion into a priority-sorted list: the new element goes after
every element whose priority is less than or equal to its own, which is the
placement a stable ascending sort gives elements arriving in input order. -/
def insertByPriority (e : ActionEntry) : List ActionEntry → List ActionEntry
  | [] => [e]
  | x :: xs =>
    if x.priority ≤ e.priority then x :: insertByPriority e xs
    else e :: x :: xs

/-- Stable ascending sort by priority (JavaScript
`sort((a, b) => a.priority - b.priority)` is stable). -/
def sortByPriority (l : List ActionEntry) : List ActionEntry :=
  l.foldl (fun acc e => insertByPriority e acc) []

/-- `getActions` from `strings.ts`: decode the keys of a mapping into
actions, stably sort ascending by priority, then discard entries whose key
matched no table entry. -/
def getActions (obj : List (String × Value))
    (actions : List (String × List String)) : Except String (List ActionEntry) :=
  match mkActionEntries actions 0 obj with
  | .ok es => .ok ((sortByPriority es).filter (fun e => !(e.action = "")))
  | .error e => .error e

/-! ### Path validation (`Toolset.ensurePathsAreLegit`) -/

/-- Does a key name select path validation: its lower-cased form ends with
`path`, `paths`, `file` or `files`. -/
def pathSuffixHit (k : String) : Bool :=
  let kl := sToLower k
  sEndsWith kl "path" || sEndsWith kl "paths" || sEndsWith kl "file"
    || sEndsWith kl "files"

/-- One element of a path list: `each && filepath.exists(render(each))`.
A falsy element stays falsy and is filtered out later; a non-empty string is
rendered and probed against the filesystem model `fs`, which returns the
resolved absolute path of an existing entry and `none` otherwise.  Truthy
non-string elements are outside the modelled domain and resolve to `none`. -/
def resolveListElem (renderS : String → String) (fs : String → Option String) :
    Value → Option String
  | .vstr s => if s = "" then none else fs (renderS s)
  | _ => none

/-- First-occurrence-preserving deduplication (`[...new Set(l)]`), with an
accumulator of already-seen elements. -/
def dedupSeen {α : Type} [DecidableEq α] (seen : List α) : List α → List α
  | [] => []
  | a :: l =>
    if a ∈ seen then dedupSeen seen l else a :: dedupSeen (a :: seen) l

/-- `[...new Set(l)]`: keep the first occurrence of every element. -/
def dedupFirst {α : Type} [DecidableEq α] (l : List α) : List α :=
  dedupSeen [] l

/-- The final `.filter(each => each)` of the array branch: drop falsy
resolution results, keeping existing paths as string values. -/
def keepResolved : Option String → Option Value
  | some s => if s = "" then none else some (.vstr s)
  | none => none

/-- The array branch of `ensurePathsAreLegit`: resolve every element,
deduplicate preserving first occurrences, and drop falsy results. -/
def ensureArray (renderS : String → String) (fs : String → Option String)
    (l : List Value) : Value :=
  .varr ((dedupFirst (l.map (resolveListElem renderS fs))).filterMap
    keepResolved)

/-- The single-string branch of `ensurePathsAreLegit`:
`filepath.exists(render(value)) || value` — the resolved path when it
exists, otherwise the original string unchanged. -/
def ensureScalar (renderS : String → String) (fs : String → Option String)
    (s : String) : Value :=
  match fs (renderS s) with
  | some p => if p = "" then .vstr s else .vstr p
  | none => .vstr s

mutual
/-- `Toolset.ensurePathsAreLegit` as a pure document transform: walk an
object; under every key whose lower-cased name ends with `path`, `paths`,
`file` or `files`, resolve strings (splitting delimiter-joined strings into
lists first) and filter lists down to deduplicated existing paths; recurse
into nested objects (but not into arrays). -/
def ensurePathsAreLegit (renderS : String → String)
    (fs : String → Option String) (delim : Char) : Value → Value
  | .vobj fields => .vobj (ensureFieldsAreLegit renderS fs delim fields)
  | v => v

/-- The entry loop of `ensurePathsAreLegit`. -/
def ensureFieldsAreLegit (renderS : String → String)
    (fs : String → Option String) (delim : Char) :
    List (String × Value) → List (String × Value)
  | [] => []
  | (k, v) :: rest =>
    (k, ensureFieldValue renderS fs delim k v)
      :: ensureFieldsAreLegit renderS fs delim rest

/-- The body of the entry loop for a single `(key, value)` pair. -/
def ensureFieldValue (renderS : String → String)
    (fs : String → Option String) (delim : Char) (k : String) :
    Value → Value
  | .vstr s =>
    if pathSuffixHit k then
      let values := sSplitBy s (fun c => c = delim)
      if values.length ≤ 1 then ensureScalar renderS fs s
      else ensureArray renderS fs (values.map .vstr)
    else .vstr s
  | .varr l => if pathSuffixHit k then ensureArray renderS fs l else .varr l
  | .vobj fields2 => .vobj (ensureFieldsAreLegit renderS fs delim fields2)
  | v => v
end

/-! ### Post-processing (`Toolset.postProcessIntellisense`) -/

mutual
/-- JavaScript string coercion of a value, as used by template-literal
interpolation. -/
def jsToString : Value → String
  | .vstr s => s
  | .vnum n => toString n
  | .vbool b => if b then "true" else "false"
  | .vnull => "null"
  | .varr l => joinBy "," (jsToStringList l)
  | .vobj _ => "[object Object]"

/-- Elementwise string coercion for array joining. -/
def jsToStringList : List Value → List String
  | [] => []
  | v :: rest => jsToString v :: jsToStringList rest
end

/-- A possibly-absent list field, `x ?? []` after an optional chain: the
list when the value is an array, empty otherwise. -/
def listOrEmpty : Option Value → List Value
  | some (.varr l) => l
  | _ => []

/-- The `-D<name>=<value>` flags generated from the `macros` mapping (in
insertion order). -/
def macroFlags (cfg : Value) : List Value :=
  match vget cfg "macros" with
  | some (.vobj ms) =>
    ms.map (fun p => Value.vstr ("-D" ++ p.1 ++ "=" ++ jsToString p.2))
  | _ => []

/-- `intellisense.include?.<k> ?? []`. -/
def includeList (cfg : Value) (k : String) : List Value :=
  match vget cfg "include" with
  | some inc => listOrEmpty (vget inc k)
  | none => []

/-- The argument list `postProcessIntellisense` builds: macro defines, then
`-I` for built-in paths, `--sys_include` for system and external paths, and
`--include_directory` for ordinary and environment paths. -/
def postProcessArgs (cfg : Value) : List Value :=
  macroFlags cfg
    ++ (includeList cfg "builtInPaths").map
      (fun e => Value.vstr ("-I" ++ jsToString e))
    ++ ((includeList cfg "systemPaths").map
      (fun e => [Value.vstr "--sys_include", e])).flatten
    ++ ((includeList cfg "externalPaths").map
      (fun e => [Value.vstr "--sys_include", e])).flatten
    ++ ((includeList cfg "paths").map
      (fun e => [Value.vstr "--include_directory", e])).flatten
    ++ ((includeList cfg "environmentPaths").map
      (fun e => [Value.vstr "--include_directory", e])).flatten

/-- `Toolset.postProcessIntellisense`: when `parserArguments` is an array,
append the generated arguments to it; otherwise leave the configuration
unchanged. -/
def postProcessIntellisense (cfg : Value) : Value :=
  match vget cfg "parserArguments" with
  | some (.varr l) =>
    vset cfg "parserArguments" (.varr (l ++ postProcessArgs cfg))
  | _ => cfg

/-! ### Rendering and fragment application

The template renderer (`render`, `recursiveRender`, `evaluateExpression`
from `Utility/Text/taggedLiteral`) is not among the analysed sources; per
the spec it renders `${prefix:expression}` tokens through a resolver.
String rendering is therefore a function parameter throughout, and
`recursiveRender` is modelled from the spec: it "walks objects and lists,
rendering every string leaf and preserving structure". -/

mutual
/-- Modelled from the spec: `recursiveRender(value, data, resolver)` with
the leaf renderer `f = render(·, data, resolver)` passed as a parameter
(the renderer itself lives outside the analysed sources). -/
def recursiveRender (f : String → String) : Value → Value
  | .vstr s => .vstr (f s)
  | .varr l => .varr (recursiveRenderList f l)
  | .vobj fields => .vobj (recursiveRenderFields f fields)
  | v => v

/-- List walk of `recursiveRender`. -/
def recursiveRenderList (f : String → String) : List Value → List Value
  | [] => []
  | v :: rest => recursiveRender f v :: recursiveRenderList f rest

/-- Object walk of `recursiveRender`. -/
def recursiveRenderFields (f : String → String) :
    List (String × Value) → List (String × Value)
  | [] => []
  | (k, v) :: rest => (k, recursiveRender f v) :: recursiveRenderFields f rest
end

/-- `Toolset.applyToConfiguration`: merge the rendered fragment into the
configuration.  `renderLeaf data s` renders one string leaf against the
data context (`formatIntelliSenseBlock`, whose source is not among the
analysed files, is modelled from the spec as passing the fragment
through). -/
def applyToConfiguration (renderLeaf : Value → String → String)
    (cfg frag data : Value) : Except String Value :=
  mergeObjects cfg (recursiveRender (renderLeaf data) frag)

/-! ### The `command` action (`Toolset.processComamndLineArgs`)

A compiled regular expression is a function parameter
`rxExec : pattern → input → Option captures` (`none` when the pattern does
not match; named captures otherwise), since the regex engine is the JS
runtime's.  Reading past the end of the argv list yields the string
`"undefined"`, as JavaScript coerces `undefined` to that string before
matching. -/

/-- Test one `;`-separated chain against the head of the argv: each i-th
pattern must match the i-th argument; named captures are merged in order
into one capture object. -/
def execChain (rxExec : String → String → Option (List (String × String)))
    (args : List String) :
    List String → Nat → Value → Option (Except String Value)
  | [], _, acc => some (.ok acc)
  | rx :: rest, i, acc =>
    match rxExec rx (args.getD i "undefined") with
    | none => none
    | some groups =>
      match mergeObjects acc
          (.vobj (groups.map (fun p => (p.1, Value.vstr p.2)))) with
      | .ok acc' => execChain rxExec args rest (i + 1) acc'
      | .error e => some (.error e)

/-- The first chain (in block order) whose every pattern matches, with its
capture object. -/
def findChain (rxExec : String → String → Option (List (String × String)))
    (args : List String) :
    List (List String × Value) →
    Option (List String × Value × Except String Value)
  | [] => none
  | (chain, frag) :: rest =>
    match execChain rxExec args chain 0 (.vobj []) with
    | none => findChain rxExec args rest
    | some r => some (chain, frag, r)

/-- Compile the block of a `command` action into chains: each key is split
on `;` and each piece is rendered as `^<piece>$` with the rx resolver. -/
def buildChains (rxRender : String → String) (block : List (String × Value)) :
    List (List String × Value) :=
  block.map (fun p =>
    ((sSplitOnChar p.1 ';').map (fun rx => rxRender ("^" ++ rx ++ "$")), p.2))

/-- The rewrite loop of `Toolset.processComamndLineArgs` (the Service
variant, `src/unnamed/part_003`): while arguments remain, apply the first
matching chain's fragment with its captures, splice the matched prefix out
of the argv (keeping it in the kept list only under `no_consume`), or move
one unmatched argument to the kept list.  The fuel argument bounds the
number of iterations; `none` means it was exhausted. -/
def processComamndLineArgs
    (rxExec : String → String → Option (List (String × String)))
    (renderLeaf : Value → String → String)
    (chains : List (List String × Value)) (noConsume : Bool) :
    Nat → List String → Value → List String →
    Option (Except String (List String × Value))
  | fuel, args, cfg, kept =>
    match args with
    | [] => some (.ok (kept, cfg))
    | a :: rest =>
      match fuel with
      | 0 => none
      | fuel + 1 =>
        match findChain rxExec args chains with
        | some (_, _, .error e) => some (.error e)
        | some (chain, frag, .ok captured) =>
          match applyToConfiguration renderLeaf cfg frag captured with
          | .error e => some (.error e)
          | .ok cfg' =>
            let used := args.take chain.length
            let kept' := if noConsume then kept ++ used else kept
            processComamndLineArgs rxExec renderLeaf chains noConsume
              fuel (args.drop chain.length) cfg' kept'
        | none =>
          processComamndLineArgs rxExec renderLeaf chains noConsume
            fuel rest cfg (kept ++ [a])

/-- The same loop as it appears in the older variant
(`src/unnamed/part_004`): the matched prefix is read with `slice` (which
does not remove it from the argv) and the kept list receives the used
arguments when `no_consume` is NOT set. -/
def processComamndLineArgs004
    (rxExec : String → String → Option (List (String × String)))
    (renderLeaf : Value → String → String)
    (chains : List (List String × Value)) (noConsume : Bool) :
    Nat → List String → Value → List String →
    Option (Except String (List String × Value))
  | fuel, args, cfg, kept =>
    match args with
    | [] => some (.ok (kept, cfg))
    | a :: rest =>
      match fuel with
      | 0 => none
      | fuel + 1 =>
        match findChain rxExec args chains with
        | some (_, _, .error e) => some (.error e)
        | some (chain, frag, .ok captured) =>
          match applyToConfiguration renderLeaf cfg frag captured with
          | .error e => some (.error e)
          | .ok cfg' =>
            let used := args.take chain.length
            let kept' := if noConsume then kept else kept ++ used
            processComamndLineArgs004 rxExec renderLeaf chains noConsume
              fuel args cfg' kept'
        | none =>
          processComamndLineArgs004 rxExec renderLeaf chains noConsume
            fuel rest cfg (kept ++ [a])

/-! ### The analysis engine (`Toolset.getIntellisenseConfiguration`)

The toolset's external world — template rendering through its resolver,
the regex engine, expression evaluation, subprocess execution, environment
variables, response files and the filesystem — is carried in a `Host`
record of oracle functions; the mutable per-toolset state (query cache,
analysis cache) is passed explicitly, together with a counter of compiler
subprocess spawns. -/

/-- The oracle functions standing for the toolset's environment. -/
structure Host where
  /-- `render(s, data0, this.resolver)` on a plain string. -/
  renderS : String → String
  /-- `render(leaf, data, this.resolver)`: leaf rendering against a data
  context, used by `recursiveRender` inside `applyToConfiguration`. -/
  renderLeaf : Value → String → String
  /-- `render(s, data0, this.rxResolver)`: rendering with the regex
  resolver (the dash-or-slash token, `${key}`, `${value}`,
  `${keyEqualsValue}`). -/
  rxRender : String → String
  /-- `new RegExp(pattern).exec(input)`: `none` on no match, otherwise the
  named captures. -/
  rxExec : String → String → Option (List (String × String))
  /-- `input.matchAll(new RegExp(pattern, gm))`: every match's named
  captures, `none` standing for a match without named groups. -/
  rxMatchAll : String → String → List (Option (List (String × String)))
  /-- `evaluateExpression(expr, data, this.resolver)` coerced to a
  boolean. -/
  evalExpr : String → Value → Bool
  /-- Rendering of a query command line with the `${tmp:...}` resolver
  extension. -/
  renderCmd : String → String
  /-- Spawning the compiler on a rendered command line and capturing its
  combined output (stdio, stderr, and any `${tmp:...}` file contents). -/
  runCmd : String → String
  /-- `filepath.exists ∘ render`: the resolved absolute path of an existing
  filesystem entry, `none` otherwise. -/
  fs : String → Option String
  /-- The platform path delimiter. -/
  delim : Char
  /-- `process.env.CL`. -/
  envCL : Option String
  /-- `process.env._CL_`. -/
  envCLu : Option String
  /-- `readFile`: the contents of a response file, `none` when reading
  throws. -/
  readF : String → Option String
  /-- `cmdlineToArray` (from `Utility/Process/program`, not among the
  analysed sources): shell-like argv tokenization, per the spec. -/
  tokenize : String → List String

/-- The mutable state of one toolset: the query cache, the analysis cache,
and the number of compiler subprocesses spawned so far. -/
structure TState where
  qcache : List (String × String)
  acache : List (String × Value)
  spawns : Nat

/-- `isC` from the toolset sources, applied to a possibly-absent field. -/
def isC : Option Value → Bool
  | some (.vstr s) => s = "c"
  | _ => false

/-- `isCpp` from the toolset sources, applied to a possibly-absent field. -/
def isCpp : Option Value → Bool
  | some (.vstr s) => s = "cpp" || s = "c++"
  | _ => false

/-- The language-filter condition of the analysis loop, exactly as written
in the source: it reads the misspelled field `lanugage` from the
configuration, and the second test parenthesizes as
`cpp-flag || (c++-flag && !isCpp(...))`. -/
def languageSkip (flags : List (String × Value)) (cfg : Value) : Bool :=
  let lan := vget cfg "lanugage"
  (truthyO (olookup flags "c") && !(isC lan))
    || (truthyO (olookup flags "cpp")
      || (truthyO (olookup flags "c++") && !(isCpp lan)))

/-- The language filter as the source's own comments (and the spec)
describe it: skip a `c` block when the language is not C, and a `cpp`/`c++`
block when the language is not C++. -/
def languageSkipIntended (flags : List (String × Value)) (cfg : Value) : Bool :=
  let lan := vget cfg "language"
  (truthyO (olookup flags "c") && !(isC lan))
    || ((truthyO (olookup flags "cpp") || truthyO (olookup flags "c++"))
      && !(isCpp lan))

/-- The linker-marker test: the argument is `-link` or `/link`,
case-insensitively. -/
def isLinkArg (a : String) : Bool :=
  sToLower a = "-link" || sToLower a = "/link"

/-- The `inline-response-file` task: scan the argv from index `i`; an
argument `@file` is replaced in place by the tokenized contents of `file`
and scanning resumes after the first inserted token.  A missing file makes
`readFile` throw (`Except.error`); the fuel bounds the scan, which need not
terminate when response files keep inserting further `@file` arguments. -/
def inlineResponse (readF : String → Option String)
    (tokenize : String → List String) :
    Nat → Nat → List String → Option (Except String (List String))
  | fuel, i, args =>
    if i < args.length then
      match fuel with
      | 0 => none
      | fuel + 1 =>
        let a := args.getD i ""
        if sStartsWith a "@" then
          match readF (sDrop a 1) with
          | none => some (.error "ENOENT: no such file or directory")
          | some contents =>
            inlineResponse readF tokenize fuel (i + 1)
              (args.take i ++ tokenize contents ++ args.drop (i + 1))
        else inlineResponse readF tokenize fuel (i + 1) args
    else some (.ok args)

/-- One named task of `Toolset.runTasks`; unknown and reserved task names
are no-ops. -/
def runTaskOne (h : Host) (fuel : Nat) (task : String) (args : List String) :
    Option (Except String (List String)) :=
  if task = "inline-environment-variables" then
    let args :=
      match h.envCL with
      | some cl => if cl = "" then args else args ++ h.tokenize cl
      | none => args
    let args :=
      match h.envCLu with
      | some cl => if cl = "" then args else h.tokenize cl ++ args
      | none => args
    some (.ok args)
  else if task = "inline-response-file" then
    inlineResponse h.readF h.tokenize fuel 0 args
  else if task = "remove-linker-arguments" then
    match args.findIdx? isLinkArg with
    | some i => some (.ok (args.take i))
    | none => some (.ok args)
  else some (.ok args)

/-- `Toolset.runTasks`: run each named task of the block in order on the
argv. -/
def runTasks (h : Host) (fuel : Nat) :
    List Value → List String → Option (Except String (List String))
  | [], args => some (.ok args)
  | .vstr t :: rest, args =>
    match runTaskOne h fuel t args with
    | none => none
    | some (.error e) => some (.error e)
    | some (.ok args') => runTasks h fuel rest args'
  | _ :: rest, args => runTasks h fuel rest args

/-- A query capture value: multi-line text becomes a list of trimmed
non-empty lines, anything else stays a string. -/
def captureToValue (s : String) : Value :=
  if sContains s '\n' then
    .varr ((((sSplitOnChar s '\n').map sTrim).filter
      (fun t => !(t = ""))).map .vstr)
  else .vstr s

/-- Apply a query fragment once per regex match carrying named groups
(matches without groups are skipped). -/
def applyQueryMatches (renderLeaf : Value → String → String) (frag : Value) :
    List (Option (List (String × String))) → Value → Except String Value
  | [], cfg => .ok cfg
  | none :: ms, cfg => applyQueryMatches renderLeaf frag ms cfg
  | some m :: ms, cfg =>
    match applyToConfiguration renderLeaf cfg frag
        (.vobj (m.map (fun p => (p.1, captureToValue p.2)))) with
    | .ok cfg' => applyQueryMatches renderLeaf frag ms cfg'
    | .error e => .error e

/-- The regex loop of `Toolset.query` over one captured output text. -/
def applyQueries (h : Host) (text : String) :
    List (String × Value) → Value → Except String Value
  | [], cfg => .ok cfg
  | (rx, frag) :: rest, cfg =>
    match applyQueryMatches h.renderLeaf frag (h.rxMatchAll rx text) cfg with
    | .ok cfg' => applyQueries h text rest cfg'
    | .error e => .error e

/-- `Toolset.query`: render the command as the cache key; on a miss (or an
empty cached text, which is falsy) render the command line with the
`${tmp:...}` extension, spawn the compiler, capture and cache the combined
output; then apply every regex/fragment pair of the query block. -/
def runQueryOne (h : Host) (command : String) (queries : List (String × Value))
    (cfg : Value) (st : TState) : Except String (Value × TState) :=
  let key := h.renderS command
  let cached := olookup st.qcache key
  let needSpawn : Bool :=
    match cached with
    | some t => decide (t = "")
    | none => true
  let text :=
    if needSpawn then h.runCmd (h.renderCmd command)
    else cached.getD ""
  let st' :=
    if needSpawn then
      { st with qcache := oset st.qcache key text, spawns := st.spawns + 1 }
    else st
  match applyQueries h text queries cfg with
  | .ok cfg' => .ok (cfg', st')
  | .error e => .error e

/-- The fields of an object value; a primitive has no enumerable entries in
the operations the code performs. -/
def objFields : Value → List (String × Value)
  | .vobj l => l
  | _ => []

/-- The command/query loop of the `quer` action:
`for (const [command, queries] of Object.entries(block))`. -/
def runQueryBlock (h : Host) :
    List (String × Value) → Value → TState → Except String (Value × TState)
  | [], cfg, st => .ok (cfg, st)
  | (command, queries) :: rest, cfg, st =>
    match runQueryOne h command (objFields queries) cfg st with
    | .ok (cfg', st') => runQueryBlock h rest cfg' st'
    | .error e => .error e

/-- The `expression` action: evaluate each expression against the current
configuration; on a truthy result merge the fragment. -/
def runExprBlock (h : Host) :
    List (String × Value) → Value → Except String Value
  | [], cfg => .ok cfg
  | (expr, frag) :: rest, cfg =>
    if h.evalExpr expr cfg then
      match applyToConfiguration h.renderLeaf cfg frag cfg with
      | .ok cfg' => runExprBlock h rest cfg'
      | .error e => .error e
    else runExprBlock h rest cfg

/-- The priority-ordered action loop of `getIntellisenseConfiguration`:
skip language-filtered entries, and dispatch `task`, `command`, `quer` and
`expression` actions, threading the argv, the working configuration and the
toolset state. -/
def runEntries (h : Host) (fuel : Nat) :
    List ActionEntry → List String → Value → TState →
    Option (Except String (List String × Value × TState))
  | [], args, cfg, st => some (.ok (args, cfg, st))
  | e :: rest, args, cfg, st =>
    if languageSkip e.flags cfg then runEntries h fuel rest args cfg st
    else if e.action = "task" then
      match runTasks h fuel (stringsOf e.block) args with
      | none => none
      | some (.error er) => some (.error er)
      | some (.ok args') => runEntries h fuel rest args' cfg st
    else if e.action = "command" then
      let chains := buildChains h.rxRender (objFields e.block)
      let noConsume := truthyO (olookup e.flags "no_consume")
      match processComamndLineArgs h.rxExec h.renderLeaf chains noConsume
          fuel args cfg [] with
      | none => none
      | some (.error er) => some (.error er)
      | some (.ok (kept, cfg')) => runEntries h fuel rest kept cfg' st
    else if e.action = "quer" then
      match runQueryBlock h (objFields e.block) cfg st with
      | .error er => some (.error er)
      | .ok (cfg', st') => runEntries h fuel rest args cfg' st'
    else if e.action = "expression" then
      match runExprBlock h (objFields e.block) cfg with
      | .error er => some (.error er)
      | .ok cfg' => runEntries h fuel rest args cfg' st
    else runEntries h fuel rest args cfg st

/-- The seed configuration
`{...definition.intellisense, language, standard, compilerPath}`.  A key
spread in with value `undefined` reads exactly like an absent key in every
operation performed on the configuration, so absent options delete the
key. -/
def seedConfig (defIntel : List (String × Value))
    (language standard : Option String) (compilerPath : String) : Value :=
  let f1 :=
    match language with
    | some l => oset defIntel "language" (.vstr l)
    | none => odelete defIntel "language"
  let f2 :=
    match standard with
    | some s => oset f1 "standard" (.vstr s)
    | none => odelete f1 "standard"
  .vobj (oset f2 "compilerPath" (.vstr compilerPath))

/-- The action table `getIntellisenseConfiguration` passes to
`getActions`. -/
def analysisActionTable : List (String × List String) :=
  [("task", ["priority", "c", "cpp", "c++"]),
   ("command", ["priority", "c", "cpp", "c++", "no_consume"]),
   ("quer", ["priority", "c", "cpp", "c++"]),
   ("expression", ["priority", "c", "cpp", "c++"])]

/-- The options record of `getIntellisenseConfiguration` (the fields the
function reads). -/
structure ICOptions where
  language : Option String := none
  standard : Option String := none
  userIntellisenseConfiguration : Option Value := none

/-- `Toolset.getIntellisenseConfiguration` (Service variant,
`src/unnamed/part_003`) as a state transformer.  On a cache hit the user
overrides are merged into the cached object itself and the result is the
(possibly mutated) cache entry, without post-processing.  On a miss the
seed configuration is run through the analysis actions, validated,
self-rendered and stored in the cache; a deep clone of it then receives the
user overrides and post-processing. -/
def getIntellisenseConfiguration (h : Host) (compilerPath : String)
    (defIntel : List (String × Value))
    (analysis : Option (List (String × Value))) (fuel : Nat)
    (compilerArgs : List String) (opts : ICOptions) (st : TState) :
    Option (Except String (Value × TState)) :=
  let cacheKey := joinBy " " compilerArgs
  match olookup st.acache cacheKey with
  | some cached =>
    match opts.userIntellisenseConfiguration with
    | none => some (.ok (cached, st))
    | some u =>
      match applyToConfiguration h.renderLeaf cached u cached with
      | .error e => some (.error e)
      | .ok merged =>
        let final := ensurePathsAreLegit h.renderS h.fs h.delim merged
        -- the merge and validation mutate the cached object in place, so
        -- the cache entry now holds the merged configuration
        some (.ok (final, { st with acache := oset st.acache cacheKey final }))
  | none =>
    let seed := seedConfig defIntel opts.language opts.standard compilerPath
    let afterActions :
        Option (Except String (List String × Value × TState)) :=
      match analysis with
      | none => some (.ok (compilerArgs, seed, st))
      | some ablock =>
        match getActions ablock analysisActionTable with
        | .error e => some (.error e)
        | .ok entries => runEntries h fuel entries compilerArgs seed st
    match afterActions with
    | none => none
    | some (.error e) => some (.error e)
    | some (.ok (_, cfg0, st1)) =>
      let cfg1 := ensurePathsAreLegit h.renderS h.fs h.delim cfg0
      let cfg2 := recursiveRender (h.renderLeaf cfg1) cfg1
      let st2 := { st1 with acache := oset st1.acache cacheKey cfg2 }
      -- `structuredClone`: later changes leave the cache entry intact
      match opts.userIntellisenseConfiguration with
      | none => some (.ok (postProcessIntellisense cfg2, st2))
      | some u =>
        match applyToConfiguration h.renderLeaf cfg2 u cfg2 with
        | .error e => some (.error e)
        | .ok merged =>
          let merged := ensurePathsAreLegit h.renderS h.fs h.delim merged
          some (.ok (postProcessIntellisense merged, st2))

/-! ### The public facade guards (`detectToolset.ts`) -/

/-- The state of the module-level `initialized` manual promise: `undefined`,
pending, or resolved. -/
inductive InitState where
  | neverCalled
  | inFlight
  | completed
deriving DecidableEq

/-- The module state of the facade that the guards and registry reads
touch: the `initialized` promise and the discovered-toolsets registry
(canonical path → toolset name). -/
structure FacadeState where
  init : InitState
  toolsets : List (String × String)

/-- The errors the facade surfaces to the caller. -/
inductive FacadeError where
  | notInitialized
deriving DecidableEq

/-- The body of `initialize(configFolders, options)` restricted to the
state it touches: a non-quick call resets the registry; the cached entries
are loaded (their content is an oracle argument); the `initialized` promise
is created and resolved, leaving the state `completed`. -/
def facadeInitialize (s : FacadeState) (quick : Bool)
    (loaded : List (String × String)) : FacadeState :=
  let base := if quick then s.toolsets else []
  { init := .completed,
    toolsets := loaded.foldl (fun acc p => oset acc p.1 p.2) base }

/-- `getToolsets()`: before any call to `initialize` the guard throws
`NotInitialized`; otherwise discovery runs (its findings are an oracle
argument, registered first-writer-wins) and the registry is returned. -/
def facadeGetToolsets (s : FacadeState) (discovered : List (String × String)) :
    Except FacadeError (List (String × String) × FacadeState) :=
  match s.init with
  | .neverCalled => .error .notInitialized
  | _ =>
    let reg := discovered.foldl
      (fun acc p =>
        match olookup acc p.1 with
        | some _ => acc
        | none => oset acc p.1 p.2) s.toolsets
    .ok (reg, { s with toolsets := reg })

/-- `identifyToolset(candidate)`: before any call to `initialize` the guard
throws `NotInitialized`; otherwise the registry is consulted first and the
remaining identification work (filesystem probing, definition matching,
lookup by name) is an oracle argument.  No path after the guard constructs
the `NotInitialized` error. -/
def facadeIdentifyToolset (s : FacadeState) (candidate : String)
    (identified : Option String) : Except FacadeError (Option String) :=
  match s.init with
  | .neverCalled => .error .notInitialized
  | _ =>
    match olookup s.toolsets candidate with
    | some name => .ok (some name)
    | none => .ok identified

/-! ### Association-list lemmas -/

theorem olookup_oset_self {β : Type} (l : List (String × β)) (k : String)
    (v : β) : olookup (oset l k v) k = some v := by
  induction l with
  | nil => simp [oset, olookup]
  | cons p rest ih =>
    obtain ⟨k', w⟩ := p
    by_cases h : k' = k <;> simp [oset, olookup, h, ih]

theorem olookup_oset_ne {β : Type} (l : List (String × β)) (k k2 : String)
    (v : β) (hne : k ≠ k2) : olookup (oset l k v) k2 = olookup l k2 := by
  induction l with
  | nil => simp [oset, olookup, hne]
  | cons p rest ih =>
    obtain ⟨k', w⟩ := p
    by_cases h : k' = k
    · subst h; simp [oset, olookup, hne, ih]
    · simp [oset, olookup, h, ih]

theorem olookup_odelete_ne {β : Type} (l : List (String × β)) (k k2 : String)
    (hne : k ≠ k2) : olookup (odelete l k) k2 = olookup l k2 := by
  induction l with
  | nil => simp [odelete, olookup]
  | cons p rest ih =>
    obtain ⟨k', w⟩ := p
    by_cases h : k' = k
    · subst h; simp [odelete, olookup, hne, ih]
    · simp [odelete, olookup, h, ih]

theorem oset_lookup_self {β : Type} (l : List (String × β)) (k : String)
    (v : β) (h : olookup l k = some v) : oset l k v = l := by
  induction l with
  | nil => simp [olookup] at h
  | cons p rest ih =>
    obtain ⟨k', w⟩ := p
    by_cases hk : k' = k
    · subst hk
      simp [olookup] at h
      simp [oset, h]
    · simp [olookup, hk] at h
      simp [oset, hk, ih h]

/-! ### Shared concrete inputs for the claims -/

/-- A host whose oracles are all trivial: rendering is the identity, no
regex matches, no file exists, every spawned command prints nothing. -/
def hostTriv : Host := {
  renderS := fun s => s
  renderLeaf := fun _ s => s
  rxRender := fun s => s
  rxExec := fun _ _ => none
  rxMatchAll := fun _ _ => []
  evalExpr := fun _ _ => false
  renderCmd := fun s => s
  runCmd := fun _ => ""
  fs := fun _ => none
  delim := ':'
  envCL := none
  envCLu := none
  readF := fun _ => none
  tokenize := fun s => sSplitOnChar s ' '
}

/-- The empty toolset state. -/
def stEmpty : TState := ⟨[], [], 0⟩

/-- A concrete regex oracle implementing the single pattern
`^-I(?<p>.+)$` of the spec's `no_consume` scenario: it matches an argument
of the form `-I<p>` with at least one character after `-I`, capturing the
remainder as `p`. -/
def rxOracle : String → String → Option (List (String × String)) :=
  fun pat inp =>
    if pat = "^-I(?<p>.+)$" then
      (if sStartsWith inp "-I" && inp.toList.length > 2
       then some [("p", sDrop inp 2)] else none)
    else none

/-- A concrete leaf renderer resolving the single template `${p}` from the
capture data. -/
def renderLeafP : Value → String → String := fun data s =>
  if s = "${p}" then
    (match vget data "p" with
     | some (.vstr v) => v
     | _ => s)
  else s

/-- The fragment of the scenario: `include.paths = ["${p}"]`. -/
def fragIncludePaths : Value :=
  .vobj [("include", .vobj [("paths", .varr [.vstr "${p}"])])]

/-- The compiled chains of the block with the single entry
`"-I(?<p>.+)" : fragIncludePaths` (the rx resolver is the identity here). -/
def chainsInclude : List (List String × Value) :=
  buildChains (fun s => s) [("-I(?<p>.+)", fragIncludePaths)]

/-- A definition `intellisense` block with one macro and an (initially
empty) `parserArguments` list. -/
def defIntelMacro : List (String × Value) :=
  [("macros", .vobj [("X", .vstr "1")]), ("parserArguments", .varr [])]

/-- What the analysis pipeline caches for `defIntelMacro` with empty argv:
the seed configuration after validation and self-rendering (no
post-processing, which runs only on the returned clone). -/
def cfgAnalyzed : Value :=
  .vobj [("macros", .vobj [("X", .vstr "1")]), ("parserArguments", .varr []),
    ("compilerPath", .vstr "cc")]

/-- The toolset state after one analysis of the empty argv. -/
def stCached : TState := ⟨[], [("", cfgAnalyzed)], 0⟩

/-- The configuration mutated into the cache by a cache-hit retrieval with
the user override `name = "zz"`. -/
def cfgMut : Value :=
  .vobj [("macros", .vobj [("X", .vstr "1")]), ("parserArguments", .varr []),
    ("compilerPath", .vstr "cc"), ("name", .vstr "zz")]

/-! ### C1 — the analysis cache on retrieval -/

/-- C1: the claim fails on the code (code bug).  For a toolset with one
macro and an empty `parserArguments` list and the empty argv: the first
`getIntellisenseConfiguration` call returns the post-processed clone
(whose `parserArguments` is `["-DX=1"]`), but the second call returns the
raw cache entry without post-processing (`parserArguments` is `[]`), so
the two calls' results are not deeply equal, although the second call
spawns no subprocess.  Moreover a cache-hit retrieval carrying
`userIntellisenseConfiguration` merges the override into the cached object
itself: after it, the cache entry contains the user's `name` field and no
longer deep-equals what the analysis stored. -/
theorem c1_cache_hit_mutation :
    getIntellisenseConfiguration hostTriv "cc" defIntelMacro none 9 [] {}
        stEmpty
      = some (.ok (.vobj [("macros", .vobj [("X", .vstr "1")]),
          ("parserArguments", .varr [.vstr "-DX=1"]),
          ("compilerPath", .vstr "cc")], stCached))
  ∧ getIntellisenseConfiguration hostTriv "cc" defIntelMacro none 9 [] {}
        stCached
      = some (.ok (cfgAnalyzed, stCached))
  ∧ veq (.vobj [("macros", .vobj [("X", .vstr "1")]),
        ("parserArguments", .varr [.vstr "-DX=1"]),
        ("compilerPath", .vstr "cc")]) cfgAnalyzed = false
  ∧ stCached.spawns = 0
  ∧ getIntellisenseConfiguration hostTriv "cc" defIntelMacro none 9 []
        { userIntellisenseConfiguration := some (.vobj [("name", .vstr "zz")]) }
        stCached
      = some (.ok (cfgMut, ⟨[], [("", cfgMut)], 0⟩))
  ∧ olookup (⟨[], [("", cfgMut)], 0⟩ : TState).acache "" = some cfgMut
  ∧ veq cfgMut cfgAnalyzed = false :=
  ⟨rfl, rfl, rfl, rfl, rfl, rfl, rfl⟩

/-! ### C3 — the language filters of the analysis loop -/

/-- A host whose expression evaluator always succeeds (used to show a
skipped block would otherwise have fired). -/
def hostExprTrue : Host := { hostTriv with evalExpr := fun _ _ => true }

/-- The decoded entry of the block `expression:c`. -/
def entryExprC : ActionEntry :=
  ⟨"expression", .vobj [("true", .vobj [("marker", .vstr "yes")])],
    [("c", .vbool true)], 0, 0⟩

/-- C3: the claim fails on the code (code bug).  The source's language
filter reads the misspelled field `lanugage` (never set; the configuration
stores the language under `language`) and parenthesizes the second test as
`cpp-flag || (c++-flag && ...)`, so a block flagged `c` is skipped even
when the effective language is `c`, and likewise for `cpp`/`c++` — the
intended filter (`languageSkipIntended`, matching the source's own
comments and the claim) would run them.  Consequently an `expression:c`
block whose expression always evaluates truthy leaves the configuration
unchanged under language `c`. -/
theorem c3_language_flags_always_skip :
    languageSkip [("c", .vbool true)] (.vobj [("language", .vstr "c")]) = true
  ∧ languageSkip [("cpp", .vbool true)]
      (.vobj [("language", .vstr "cpp")]) = true
  ∧ languageSkip [("c++", .vbool true)]
      (.vobj [("language", .vstr "c++")]) = true
  ∧ languageSkipIntended [("c", .vbool true)]
      (.vobj [("language", .vstr "c")]) = false
  ∧ languageSkipIntended [("cpp", .vbool true)]
      (.vobj [("language", .vstr "cpp")]) = false
  ∧ languageSkipIntended [("c++", .vbool true)]
      (.vobj [("language", .vstr "c++")]) = false
  ∧ getActions [("expression:c", .vobj [("true", .vobj [("marker", .vstr "yes")])])]
      analysisActionTable = .ok [entryExprC]
  ∧ runEntries hostExprTrue 5 [entryExprC] []
      (.vobj [("language", .vstr "c")]) stEmpty
      = some (.ok ([], .vobj [("language", .vstr "c")], stEmpty)) :=
  ⟨rfl, rfl, rfl, rfl, rfl, rfl, rfl, rfl⟩

/-! ### C4 — the `command` action with `no_consume` -/

/-- C4: confirmed.  The spec's scenario: a `no_consume` command block with
the single entry mapping `-I(?<p>.+)` to `include.paths = ["${p}"]`, run
on the argv `["-I/x", "-O2"]`, produces a configuration whose
`include.paths` is exactly `["/x"]` and the kept argv `["-I/x", "-O2"]`;
without the `no_consume` flag the matched `-I/x` is consumed and only
`-O2` is kept, with the same configuration. -/
theorem c4_command_no_consume :
    processComamndLineArgs rxOracle renderLeafP chainsInclude true 10
        ["-I/x", "-O2"] (.vobj []) []
      = some (.ok (["-I/x", "-O2"],
          .vobj [("include", .vobj [("paths", .varr [.vstr "/x"])])]))
  ∧ processComamndLineArgs rxOracle renderLeafP chainsInclude false 10
        ["-I/x", "-O2"] (.vobj []) []
      = some (.ok (["-O2"],
          .vobj [("include", .vobj [("paths", .varr [.vstr "/x"])])])) :=
  ⟨rfl, rfl⟩

/-! ### C6 — `remove:` keys in the object merger -/

/-- C6: the claim fails on the code (code bug).  The source writes the
filtered list through `target.key[key]` instead of `target[key]`: with a
list-valued target field `a` and source `remove:a`, the merge throws a
`TypeError` when the target has no `key` property, and when a literal
`key` object is present it leaves `a` unchanged and deposits the filtered
list under `key.a` instead.  Only the scalar case behaves as the claim
says: a string target contained in the removal set deletes the key. -/
theorem c6_remove_list_broken :
    mergeObjects (.vobj [("a", .varr [.vstr "x", .vstr "y"])])
        (.vobj [("remove:a", .vstr "x")])
      = .error "TypeError: cannot set properties of undefined"
  ∧ mergeObjects (.vobj [("key", .vobj []), ("a", .varr [.vstr "x", .vstr "y"])])
        (.vobj [("remove:a", .vstr "x")])
      = .ok (.vobj [("key", .vobj [("a", .varr [.vstr "y"])]),
          ("a", .varr [.vstr "x", .vstr "y"])])
  ∧ mergeObjects (.vobj [("a", .vstr "x")]) (.vobj [("remove:a", .vstr "x")])
      = .ok (.vobj []) :=
  ⟨rfl, rfl, rfl⟩

/-! ### C8 — post-processing into `parserArguments` -/

/-- The concrete configuration of the spec's scenario F. -/
def cfgScenarioF : Value :=
  .vobj [("macros", .vobj [("X", .vstr "1")]),
    ("include", .vobj [("systemPaths", .varr [.vstr "/s"]),
      ("paths", .varr [.vstr "/p"])]),
    ("parserArguments", .varr [])]

/-- C8: confirmed.  When `parserArguments` is a list, post-processing
appends, in order: `-D<name>=<value>` per macro, `-I<path>` per built-in
include path, `--sys_include <path>` per system then external path, and
`--include_directory <path>` per ordinary then environment path; when
`parserArguments` is not a list the configuration is unchanged; and on the
spec's scenario the final `parserArguments` is exactly
`["-DX=1", "--sys_include", "/s", "--include_directory", "/p"]`. -/
theorem c8_postprocess_appends :
    (∀ (cfg : Value) (l : List Value),
      vget cfg "parserArguments" = some (.varr l) →
        vget (postProcessIntellisense cfg) "parserArguments"
          = some (.varr (l ++ (macroFlags cfg
              ++ (includeList cfg "builtInPaths").map
                (fun e => Value.vstr ("-I" ++ jsToString e))
              ++ ((includeList cfg "systemPaths").map
                (fun e => [Value.vstr "--sys_include", e])).flatten
              ++ ((includeList cfg "externalPaths").map
                (fun e => [Value.vstr "--sys_include", e])).flatten
              ++ ((includeList cfg "paths").map
                (fun e => [Value.vstr "--include_directory", e])).flatten
              ++ ((includeList cfg "environmentPaths").map
                (fun e => [Value.vstr "--include_directory", e])).flatten))))
  ∧ (∀ cfg : Value,
      (∀ l : List Value, vget cfg "parserArguments" ≠ some (.varr l)) →
        postProcessIntellisense cfg = cfg)
  ∧ vget (postProcessIntellisense cfgScenarioF) "parserArguments"
      = some (.varr [.vstr "-DX=1", .vstr "--sys_include", .vstr "/s",
          .vstr "--include_directory", .vstr "/p"]) := by
  refine ⟨?_, ?_, rfl⟩
  · intro cfg l h
    cases cfg with
    | vobj fields =>
      simp only [vget] at h
      simp only [postProcessIntellisense, vget, vset, h]
      rw [olookup_oset_self]
      rfl
    | vnull => simp [vget] at h
    | vbool b => simp [vget] at h
    | vnum n => simp [vget] at h
    | vstr s => simp [vget] at h
    | varr l2 => simp [vget] at h
  · intro cfg h
    unfold postProcessIntellisense
    cases hv : vget cfg "parserArguments" with
    | none => rfl
    | some w =>
      cases w with
      | varr l => exact absurd hv (h l)
      | vnull => rfl
      | vbool b => rfl
      | vnum n => rfl
      | vstr s => rfl
      | vobj f => rfl

/-- Witness for C8: the first conjunct applied to the scenario F
configuration. -/
theorem c8_postprocess_appends_witness :
    vget cfgScenarioF "parserArguments" = some (.varr [])
  ∧ vget (postProcessIntellisense cfgScenarioF) "parserArguments"
      = some (.varr ([] ++ (macroFlags cfgScenarioF
          ++ (includeList cfgScenarioF "builtInPaths").map
            (fun e => Value.vstr ("-I" ++ jsToString e))
          ++ ((includeList cfgScenarioF "systemPaths").map
            (fun e => [Value.vstr "--sys_include", e])).flatten
          ++ ((includeList cfgScenarioF "externalPaths").map
            (fun e => [Value.vstr "--sys_include", e])).flatten
          ++ ((includeList cfgScenarioF "paths").map
            (fun e => [Value.vstr "--include_directory", e])).flatten
          ++ ((includeList cfgScenarioF "environmentPaths").map
            (fun e => [Value.vstr "--include_directory", e])).flatten))) :=
  ⟨rfl, c8_postprocess_appends.1 cfgScenarioF [] rfl⟩

/-! ### C9 — the facade's NotInitialized guards -/

/-- C9: confirmed.  Before any call to `initialize`, both `getToolsets`
and `identifyToolset` surface the NotInitialized error to the caller;
after `initialize` completes, neither entry point can produce it. -/
theorem c9_not_initialized_guard :
    (∀ (s : FacadeState) (d : List (String × String)),
      s.init = .neverCalled →
        facadeGetToolsets s d = .error .notInitialized)
  ∧ (∀ (s : FacadeState) (c : String) (i : Option String),
      s.init = .neverCalled →
        facadeIdentifyToolset s c i = .error .notInitialized)
  ∧ (∀ (s : FacadeState) (q : Bool) (l d : List (String × String)),
      facadeGetToolsets (facadeInitialize s q l) d ≠ .error .notInitialized)
  ∧ (∀ (s : FacadeState) (q : Bool) (l : List (String × String)) (c : String)
      (i : Option String),
      facadeIdentifyToolset (facadeInitialize s q l) c i
        ≠ .error .notInitialized) := by
  refine ⟨?_, ?_, ?_, ?_⟩
  · intro s d h
    unfold facadeGetToolsets
    rw [h]
  · intro s c i h
    unfold facadeIdentifyToolset
    rw [h]
  · intro s q l d
    unfold facadeGetToolsets facadeInitialize
    simp
  · intro s q l c i
    unfold facadeIdentifyToolset facadeInitialize
    simp only []
    cases olookup (l.foldl (fun acc p => oset acc p.1 p.2)
        (if q then s.toolsets else [])) c <;> simp

/-- Witness for C9 at concrete states: the fresh (never-initialized) state
rejects both calls, and the initialized state accepts them. -/
theorem c9_not_initialized_guard_witness :
    facadeGetToolsets ⟨.neverCalled, []⟩ [] = .error .notInitialized
  ∧ facadeIdentifyToolset ⟨.neverCalled, []⟩ "gcc" none
      = .error .notInitialized
  ∧ facadeGetToolsets (facadeInitialize ⟨.neverCalled, []⟩ false []) []
      ≠ .error .notInitialized
  ∧ facadeIdentifyToolset (facadeInitialize ⟨.neverCalled, []⟩ false [])
      "gcc" none ≠ .error .notInitialized :=
  ⟨c9_not_initialized_guard.1 _ _ rfl,
   c9_not_initialized_guard.2.1 _ _ _ rfl,
   c9_not_initialized_guard.2.2.1 _ _ _ _,
   c9_not_initialized_guard.2.2.2 _ _ _ _ _⟩

/-! ### C10 — termination of the command-rewrite loop -/

/-- The fragment of the scenario rendered against the captures `p = "/x"`. -/
def fragIncludeRendered : Value :=
  .vobj [("include", .vobj [("paths", .varr [.vstr "/x"])])]

/-- Merging the rendered scenario fragment into any target object cannot
throw (the fragment has no `remove:` keys). -/
theorem mergeFields_includeFrag_ok (tf : List (String × Value)) :
    ∃ r, mergeFields tf [("include", Value.vobj [("paths",
      Value.varr [Value.vstr "/x"])])] = .ok r := by
  have hstep : mergeFields tf [("include", Value.vobj [("paths",
      Value.varr [Value.vstr "/x"])])]
      = match mergeAssign tf "include" (Value.vobj [("paths",
          Value.varr [Value.vstr "/x"])]) with
        | .ok tf' => .ok tf'
        | .error e => .error e := rfl
  rw [hstep]
  have hpre : sStartsWith "include" "prepend:" = false := rfl
  cases holo : olookup tf "include" with
  | none =>
    refine ⟨oset tf "include" (.vobj [("paths", .varr [.vstr "/x"])]), ?_⟩
    simp [mergeAssign, hpre, holo, cloneV]
  | some tv =>
    cases tv with
    | vobj tvf =>
      have hp : mergeFields tvf [("paths", Value.varr [Value.vstr "/x"])]
          = .ok (mergeArrayValue tvf "paths" false [Value.vstr "/x"]) := rfl
      refine ⟨oset tf "include" (.vobj (mergeArrayValue tvf "paths" false
        [Value.vstr "/x"])), ?_⟩
      simp [mergeAssign, hpre, holo, hp]
    | vnull => exact ⟨tf, by simp [mergeAssign, hpre, holo]⟩
    | vbool b => exact ⟨tf, by simp [mergeAssign, hpre, holo]⟩
    | vnum n => exact ⟨tf, by simp [mergeAssign, hpre, holo]⟩
    | vstr s => exact ⟨tf, by simp [mergeAssign, hpre, holo]⟩
    | varr l2 => exact ⟨tf, by simp [mergeAssign, hpre, holo]⟩

/-- Applying the scenario fragment with its captures to any configuration
succeeds. -/
theorem applyIncludeFrag_ok (cfg : Value) :
    ∃ c', applyToConfiguration renderLeafP cfg fragIncludePaths
      (.vobj [("p", .vstr "/x")]) = .ok c' := by
  show ∃ c', mergeObjects cfg (recursiveRender
    (renderLeafP (.vobj [("p", .vstr "/x")])) fragIncludePaths) = .ok c'
  have hr : recursiveRender (renderLeafP (.vobj [("p", .vstr "/x")]))
      fragIncludePaths = fragIncludeRendered := rfl
  rw [hr]
  cases cfg with
  | vobj tf =>
    obtain ⟨r, hrr⟩ := mergeFields_includeFrag_ok tf
    exact ⟨.vobj r, by simp only [mergeObjects, fragIncludeRendered, hrr]⟩
  | vnull => exact ⟨.vnull, rfl⟩
  | vbool b => exact ⟨.vbool b, rfl⟩
  | vnum n => exact ⟨.vnum n, rfl⟩
  | vstr s => exact ⟨.vstr s, rfl⟩
  | varr l => exact ⟨.varr l, rfl⟩

/-- One unfolding of the part_004 loop on the matching argv `["-I/x"]`:
the chain matches, the fragment is applied, and the loop recurses with the
SAME argv (the `slice` never removes the matched prefix). -/
theorem pc004_step (n : Nat) (cfg : Value) (kept : List String) :
    processComamndLineArgs004 rxOracle renderLeafP chainsInclude false (n + 1)
      ["-I/x"] cfg kept
    = match applyToConfiguration renderLeafP cfg fragIncludePaths
        (.vobj [("p", .vstr "/x")]) with
      | .error e => some (.error e)
      | .ok cfg' =>
        processComamndLineArgs004 rxOracle renderLeafP chainsInclude false n
          ["-I/x"] cfg' (kept ++ ["-I/x"]) := rfl

/-- C10: the claim fails on the code of `src/unnamed/part_004` (code bug).
That variant reads the matched prefix with `slice(0, n)` — which does not
remove it from the argv, though the adjacent comment says "remove the args
used from the command line" — so on any argv whose head a chain matches the
loop re-matches the same head forever: for every fuel bound the loop fails
to finish.  (The Service variant uses `splice` and terminates on the same
input: see the C4 theorem, whose runs complete with fuel 10.) -/
theorem c10_part004_loop_diverges :
    ∀ (fuel : Nat) (cfg : Value) (kept : List String),
      processComamndLineArgs004 rxOracle renderLeafP chainsInclude false fuel
        ["-I/x"] cfg kept = none := by
  intro fuel
  induction fuel with
  | zero => intro cfg kept; rfl
  | succ n ih =>
    intro cfg kept
    rw [pc004_step n cfg kept]
    obtain ⟨c', hc⟩ := applyIncludeFrag_ok cfg
    rw [hc]
    exact ih c' (kept ++ ["-I/x"])

/-! ### C2 — what path validation guarantees -/

/-- The claim's per-string requirement, over the filesystem model: the
string is an absolute path (leading `/`) that exists at validation time
(`fs` resolves it). -/
def strPathOK (fs : String → Option String) (s : String) : Bool :=
  sStartsWith s "/" && (fs s).isSome

/-- No deep-equal duplicates in a list (the claim's "contains no
duplicates"). -/
def nodupV : List Value → Bool
  | [] => true
  | a :: l => !(containsV l a) && nodupV l

/-- A list element that is a validated path string (non-strings fail). -/
def isResolved (fs : String → Option String) : Value → Bool
  | .vstr s => strPathOK fs s
  | _ => false

/-- A list element as the claim constrains it: string elements must be
validated paths, non-strings are unconstrained. -/
def strElemOK (fs : String → Option String) : Value → Bool
  | .vstr s => strPathOK fs s
  | _ => true

mutual
/-- The claim of C2 as a decidable predicate over a document: under every
key whose lower-cased name ends with `path`, `paths`, `file` or `files`,
a string field is a validated path and a list field is duplicate-free with
every string element a validated path; the walk descends into nested
objects and arrays. -/
def pathClaimOK (fs : String → Option String) : Value → Bool
  | .vobj fields => pathClaimFields fs fields
  | .varr l => pathClaimList fs l
  | _ => true

/-- Array walk of `pathClaimOK`. -/
def pathClaimList (fs : String → Option String) : List Value → Bool
  | [] => true
  | v :: rest => pathClaimOK fs v && pathClaimList fs rest

/-- Object walk of `pathClaimOK`. -/
def pathClaimFields (fs : String → Option String) :
    List (String × Value) → Bool
  | [] => true
  | (k, v) :: rest => pathClaimEntry fs k v && pathClaimFields fs rest

/-- One entry of `pathClaimOK`. -/
def pathClaimEntry (fs : String → Option String) (k : String) : Value → Bool
  | .vstr s => !(pathSuffixHit k) || strPathOK fs s
  | .varr l =>
    (!(pathSuffixHit k) || (nodupV l && l.all (strElemOK fs)))
      && pathClaimList fs l
  | .vobj f2 => pathClaimFields fs f2
  | _ => true
end

mutual
/-- The provable part of C2 (the amended claim): every LIST under a
path-selecting key, through nested objects, is duplicate-free and contains
only validated path strings; scalar string fields are unconstrained (the
code keeps an unresolvable scalar unchanged). -/
def pathListsOK (fs : String → Option String) : Value → Bool
  | .vobj fields => pathListsFields fs fields
  | _ => true

/-- Object walk of `pathListsOK`. -/
def pathListsFields (fs : String → Option String) :
    List (String × Value) → Bool
  | [] => true
  | (k, v) :: rest => pathEntryOK fs k v && pathListsFields fs rest

/-- One entry of `pathListsOK`. -/
def pathEntryOK (fs : String → Option String) (k : String) : Value → Bool
  | .varr l => !(pathSuffixHit k) || (nodupV l && l.all (isResolved fs))
  | .vobj f2 => pathListsFields fs f2
  | _ => true
end

/-- C2 counterexample: the claim as stated is false.  With a filesystem on
which nothing exists, validating the configuration `{path: "p"}` leaves
the non-existent, relative string `"p"` in place (the source falls back to
the original value: `filepath.exists(...) || value`), so not every string
under a path-selecting key is an absolute existing path. -/
theorem c2_counterexample :
    ensurePathsAreLegit (fun s => s) (fun _ => none) ':'
        (.vobj [("path", .vstr "p")])
      = .vobj [("path", .vstr "p")]
  ∧ pathClaimOK (fun _ => none)
      (ensurePathsAreLegit (fun s => s) (fun _ => none) ':'
        (.vobj [("path", .vstr "p")])) = false :=
  ⟨rfl, rfl⟩

theorem dedupSeen_mem {α : Type} [DecidableEq α] :
    ∀ (l seen : List α) (x : α), x ∈ dedupSeen seen l → x ∈ l := by
  intro l
  induction l with
  | nil => intro seen x h; simp [dedupSeen] at h
  | cons a rest ih =>
    intro seen x h
    by_cases ha : a ∈ seen
    · simp only [dedupSeen, if_pos ha] at h
      exact List.mem_cons_of_mem _ (ih seen x h)
    · simp only [dedupSeen, if_neg ha, List.mem_cons] at h
      rcases h with h | h
      · simp [h]
      · exact List.mem_cons_of_mem _ (ih _ x h)

theorem dedupSeen_notin_seen {α : Type} [DecidableEq α] :
    ∀ (l seen : List α) (x : α), x ∈ dedupSeen seen l → x ∉ seen := by
  intro l
  induction l with
  | nil => intro seen x h; simp [dedupSeen] at h
  | cons a rest ih =>
    intro seen x h
    by_cases ha : a ∈ seen
    · simp only [dedupSeen, if_pos ha] at h
      exact ih seen x h
    · simp only [dedupSeen, if_neg ha, List.mem_cons] at h
      rcases h with h | h
      · subst h; exact ha
      · intro hx
        exact ih _ x h (List.mem_cons_of_mem _ hx)

theorem dedupSeen_nodup {α : Type} [DecidableEq α] :
    ∀ (l seen : List α), (dedupSeen seen l).Nodup := by
  intro l
  induction l with
  | nil => intro seen; simp [dedupSeen]
  | cons a rest ih =>
    intro seen
    by_cases ha : a ∈ seen
    · simp only [dedupSeen, if_pos ha]; exact ih seen
    · simp only [dedupSeen, if_neg ha]
      rw [List.nodup_cons]
      refine ⟨fun hmem => ?_, ih _⟩
      exact dedupSeen_notin_seen rest (a :: seen) a hmem
        (List.mem_cons_self a seen)

theorem mem_filterMap_keepResolved (d : List (Option String)) (e : Value)
    (h : e ∈ d.filterMap keepResolved) :
    ∃ s, e = .vstr s ∧ some s ∈ d ∧ s ≠ "" := by
  rw [List.mem_filterMap] at h
  obtain ⟨o, ho, hf⟩ := h
  cases o with
  | none => simp [keepResolved] at hf
  | some s =>
    by_cases hs : s = ""
    · simp [keepResolved, hs] at hf
    · simp only [keepResolved, if_neg hs, Option.some.injEq] at hf
      exact ⟨s, hf.symm, ho, hs⟩

theorem nodupV_filterMap_keepResolved :
    ∀ (d : List (Option String)), d.Nodup →
      nodupV (d.filterMap keepResolved) = true := by
  intro d
  induction d with
  | nil => intro _; rfl
  | cons o rest ih =>
    intro hnd
    rw [List.nodup_cons] at hnd
    obtain ⟨hnotin, hnd'⟩ := hnd
    cases o with
    | none =>
      simp only [List.filterMap_cons, keepResolved]
      exact ih hnd'
    | some s =>
      by_cases hs : s = ""
      · simp only [List.filterMap_cons, keepResolved, if_pos hs]
        exact ih hnd'
      · simp only [List.filterMap_cons, keepResolved, if_neg hs]
        simp only [nodupV, Bool.and_eq_true, Bool.not_eq_true']
        refine ⟨?_, ih hnd'⟩
        rw [containsV, List.any_eq_false]
        intro e he hveq
        obtain ⟨t, rfl, hmem, ht⟩ := mem_filterMap_keepResolved rest e he
        simp only [veq, beq_iff_eq] at hveq
        exact hnotin (hveq ▸ hmem)

theorem resolve_mem (renderS : String → String) (fs : String → Option String)
    (l : List Value) (s : String)
    (h : some s ∈ l.map (resolveListElem renderS fs)) :
    ∃ x, fs x = some s := by
  rw [List.mem_map] at h
  obtain ⟨v, _, hr⟩ := h
  cases v with
  | vstr t =>
    by_cases ht : t = ""
    · simp [resolveListElem, ht] at hr
    · simp only [resolveListElem, if_neg ht] at hr
      exact ⟨renderS t, hr⟩
  | vnull => simp [resolveListElem] at hr
  | vbool b => simp [resolveListElem] at hr
  | vnum n => simp [resolveListElem] at hr
  | varr l2 => simp [resolveListElem] at hr
  | vobj f2 => simp [resolveListElem] at hr

theorem ensureArray_valid (renderS : String → String)
    (fs : String → Option String)
    (hfs : ∀ s t, fs s = some t →
      sStartsWith t "/" = true ∧ (fs t).isSome = true)
    (k : String) (l : List Value) :
    pathEntryOK fs k (ensureArray renderS fs l) = true := by
  show pathEntryOK fs k (.varr _) = true
  simp only [pathEntryOK]
  rw [Bool.or_eq_true]
  right
  rw [Bool.and_eq_true]
  constructor
  · exact nodupV_filterMap_keepResolved _ (dedupSeen_nodup _ _)
  · rw [List.all_eq_true]
    intro e he
    obtain ⟨s, rfl, hmem, _⟩ := mem_filterMap_keepResolved _ _ he
    have hmem' : some s ∈ l.map (resolveListElem renderS fs) :=
      dedupSeen_mem _ _ _ hmem
    obtain ⟨x, hx⟩ := resolve_mem renderS fs l s hmem'
    obtain ⟨h1, h2⟩ := hfs x s hx
    simp [isResolved, strPathOK, h1, h2]

theorem ensureScalar_entryOK (renderS : String → String)
    (fs : String → Option String) (k : String) (s : String) :
    pathEntryOK fs k (ensureScalar renderS fs s) = true := by
  unfold ensureScalar
  cases fs (renderS s) with
  | none => rfl
  | some p =>
    by_cases hp : p = ""
    · simp only [if_pos hp]; rfl
    · simp only [if_neg hp]; rfl

/-- C2 amended: after `ensurePathsAreLegit`, provided the filesystem probe
only ever returns absolute existing paths, every list under a
path-selecting key (through nested objects) is duplicate-free and contains
only absolute existing path strings.  (Scalar string fields carry no such
guarantee — see the counterexample.) -/
theorem c2_path_lists_validated (renderS : String → String)
    (fs : String → Option String) (delim : Char)
    (hfs : ∀ s t, fs s = some t →
      sStartsWith t "/" = true ∧ (fs t).isSome = true) :
    ∀ v : Value,
      pathListsOK fs (ensurePathsAreLegit renderS fs delim v) = true := by
  have hfields : ∀ fl : List (String × Value),
      pathListsFields fs (ensureFieldsAreLegit renderS fs delim fl) = true := by
    intro fl
    induction fl using ensureFieldsAreLegit.induct renderS fs delim
        (motive_2 := fun k v =>
          pathEntryOK fs k (ensureFieldValue renderS fs delim k v) = true) with
    | case1 k s hk values hlen =>
      simp only [ensureFieldValue, if_pos hk]
      rw [if_pos hlen]
      exact ensureScalar_entryOK renderS fs k s
    | case2 k s hk values hlen =>
      simp only [ensureFieldValue, if_pos hk]
      rw [if_neg hlen]
      exact ensureArray_valid renderS fs hfs k _
    | case3 k s hk =>
      simp only [ensureFieldValue, if_neg hk]
      rfl
    | case4 k l hk =>
      simp only [ensureFieldValue, if_pos hk]
      exact ensureArray_valid renderS fs hfs k l
    | case5 k l hk =>
      simp only [ensureFieldValue, if_neg hk]
      simp [pathEntryOK, Bool.or_eq_true, hk]
    | case6 k fields2 ih =>
      simpa only [ensureFieldValue, pathEntryOK] using ih
    | case7 k v h1 h2 h3 =>
      cases v with
      | vstr s => exact absurd rfl (h1 s)
      | varr l => exact absurd rfl (h2 l)
      | vobj f2 => exact absurd rfl (h3 f2)
      | vnull => rfl
      | vbool b => rfl
      | vnum n => rfl
    | case8 => rfl
    | case9 k v rest ih1 ih2 =>
      simp only [ensureFieldsAreLegit, pathListsFields, Bool.and_eq_true]
      exact ⟨ih1, ih2⟩
  intro v
  cases v with
  | vobj fields =>
    simpa only [ensurePathsAreLegit, pathListsOK] using hfields fields
  | vnull => rfl
  | vbool b => rfl
  | vnum n => rfl
  | vstr s => rfl
  | varr l => rfl

/-- A filesystem model on which exactly the `/`-rooted strings exist,
resolving to themselves. -/
def fsAbs : String → Option String := fun s =>
  if sStartsWith s "/" then some s else none

theorem fsAbs_sound : ∀ s t, fsAbs s = some t →
    sStartsWith t "/" = true ∧ (fsAbs t).isSome = true := by
  intro s t h
  unfold fsAbs at h
  by_cases hs : sStartsWith s "/" = true
  · rw [if_pos hs, Option.some.injEq] at h
    subst h
    exact ⟨hs, by simp [fsAbs, hs]⟩
  · rw [if_neg hs] at h
    cases h

/-- Witness for C2 at a concrete configuration: validating
`include.paths = ["/a", "/nope", "/b", "/a"]` against `fsAbs` (on which
`"/nope"` exists, being absolute, but duplicates must go) yields a
duplicate-free list of absolute existing paths satisfying the amended
predicate. -/
theorem c2_path_lists_validated_witness :
    pathListsOK fsAbs (ensurePathsAreLegit (fun s => s) fsAbs ':'
      (.vobj [("include", .vobj [("paths",
        .varr [.vstr "/a", .vstr "/nope", .vstr "/b", .vstr "/a"])])])) = true :=
  c2_path_lists_validated (fun s => s) fsAbs ':' fsAbs_sound _

/-! ### C7 — what `getActions` returns -/

/-- The priority rule as the specification words it: the integer value of
the `priority` flag whenever that flag is present (falling back to the
positional index only when it is absent or does not parse). -/
def claimedPriority (e : ActionEntry) : Int :=
  match olookup e.flags "priority" with
  | some (.vstr s) =>
    match parseIntJS s with
    | some n => n
    | none => (e.index : Int)
  | _ => (e.index : Int)

/-- The order a stable ascending sort by priority imposes on entries
numbered in input order: strictly smaller priority, or equal priority and
strictly smaller input position. -/
def entryLexLT (a b : ActionEntry) : Prop :=
  a.priority < b.priority ∨ (a.priority = b.priority ∧ a.index < b.index)

theorem entryLexLT_le {a b : ActionEntry} (h : entryLexLT a b) :
    a.priority ≤ b.priority := by
  rcases h with h | ⟨h, _⟩
  · exact le_of_lt h
  · exact le_of_eq h

theorem getD_find?_cases {α : Type} (p : α → Bool) (l : List α) (d : α) :
    (l.find? p).getD d = d ∨ (l.find? p).getD d ∈ l := by
  cases h : l.find? p with
  | none => left; rfl
  | some a =>
    right
    simp only [Option.getD_some]
    exact List.mem_of_find?_eq_some h

theorem mem_oset {β : Type} (key : String) (v : β) :
    ∀ (l : List (String × β)) (p : String × β),
      p ∈ oset l key v → p = (key, v) ∨ p ∈ l := by
  intro l
  induction l with
  | nil =>
    intro p hp
    simp only [oset] at hp
    rcases List.mem_cons.mp hp with h | h
    · left; exact h
    · cases h
  | cons x rest ih =>
    obtain ⟨k0, w0⟩ := x
    intro p hp
    by_cases hk : k0 = key
    · simp only [oset, if_pos hk] at hp
      rcases List.mem_cons.mp hp with h | h
      · left; exact h
      · right; exact List.mem_cons_of_mem _ h
    · simp only [oset, if_neg hk] at hp
      rcases List.mem_cons.mp hp with h | h
      · right; rw [h]; exact List.mem_cons_self _ _
      · rcases ih p h with h2 | h2
        · left; exact h2
        · right; exact List.mem_cons_of_mem _ h2

theorem parseFlagsStep_keys (vf : List String) (acc : List (String × Value))
    (part : String) (p : String × Value)
    (hp : p ∈ parseFlagsStep vf acc part) : p ∈ acc ∨ p.1 ∈ vf := by
  simp only [parseFlagsStep] at hp
  split at hp
  · left; exact hp
  · split at hp
    next hcont =>
      rcases mem_oset _ _ acc p hp with h | h
      · right
        rw [h]
        simpa using hcont
      · left; exact h
    next => left; exact hp

theorem parseFlags_keys (vf : List String) (parts : List String) :
    ∀ p ∈ parseFlags vf parts, p.1 ∈ vf := by
  have aux : ∀ (ps : List String) (acc : List (String × Value)),
      (∀ p ∈ acc, p.1 ∈ vf) →
      ∀ p ∈ ps.foldl (parseFlagsStep vf) acc, p.1 ∈ vf := by
    intro ps
    induction ps with
    | nil => intro acc hacc p hp; exact hacc p hp
    | cons q qs ih =>
      intro acc hacc p hp
      simp only [List.foldl_cons] at hp
      refine ih _ ?_ p hp
      intro r hr
      rcases parseFlagsStep_keys vf acc q r hr with h | h
      · exact hacc r h
      · exact h
  intro p hp
  exact aux parts [] (fun r hr => absurd hr (List.not_mem_nil r)) p hp

theorem parseFlags_nil (parts : List String) : parseFlags [] parts = [] := by
  have step : ∀ (acc : List (String × Value)) (part : String),
      parseFlagsStep [] acc part = acc := by
    intro acc part
    simp only [parseFlagsStep]
    split
    · rfl
    · rfl
  have aux : ∀ (ps : List String) (acc : List (String × Value)),
      ps.foldl (parseFlagsStep []) acc = acc := by
    intro ps
    induction ps with
    | nil => intro acc; rfl
    | cons q qs ih =>
      intro acc
      simp only [List.foldl_cons, step]
      exact ih _
  exact aux parts []

theorem mkActionEntry_spec (table : List (String × List String)) (ndx : Nat)
    (expression : String) (b : Value) (e : ActionEntry)
    (h : mkActionEntry table ndx expression b = .ok e) :
    e.index = ndx ∧ e.priority = flagPriority e.flags e.index ∧
      ((e.action = "" ∧ e.flags = []) ∨
        ∃ row ∈ table, row.1 = e.action ∧ ∀ p ∈ e.flags, p.1 ∈ row.2) := by
  simp only [mkActionEntry] at h
  split at h
  · exact absurd h (by simp)
  · simp only [Except.ok.injEq] at h
    subst h
    refine ⟨rfl, rfl, ?_⟩
    rcases getD_find?_cases
        (fun r => sStartsWith r.1
          (sToLower (String.mk ((expression.toList.takeWhile
            (fun c => c.isAlpha)).take 4))))
        table ("", []) with hr | hr
    · left
      rw [hr]
      exact ⟨rfl, parseFlags_nil _⟩
    · right
      exact ⟨_, hr, rfl, fun p hp => parseFlags_keys _ _ p hp⟩

theorem mkActionEntries_spec (table : List (String × List String)) :
    ∀ (obj : List (String × Value)) (n : Nat) (es : List ActionEntry),
      mkActionEntries table n obj = .ok es →
      (∀ e ∈ es, n ≤ e.index ∧ e.priority = flagPriority e.flags e.index ∧
        ((e.action = "" ∧ e.flags = []) ∨
          ∃ row ∈ table, row.1 = e.action ∧ ∀ p ∈ e.flags, p.1 ∈ row.2)) ∧
      es.Pairwise (fun a b => a.index < b.index) := by
  intro obj
  induction obj with
  | nil =>
    intro n es h
    simp only [mkActionEntries, Except.ok.injEq] at h
    subst h
    exact ⟨fun e he => absurd he (List.not_mem_nil e), List.Pairwise.nil⟩
  | cons kb rest ih =>
    obtain ⟨k, b⟩ := kb
    intro n es h
    cases hmk : mkActionEntry table n k b with
    | error err => simp [mkActionEntries, hmk] at h
    | ok e =>
      cases hrec : mkActionEntries table (n + 1) rest with
      | error err => simp [mkActionEntries, hmk, hrec] at h
      | ok es2 =>
        simp only [mkActionEntries, hmk, hrec, Except.ok.injEq] at h
        subst h
        obtain ⟨hidx, hpri, hact⟩ := mkActionEntry_spec table n k b e hmk
        obtain ⟨hall, hpw⟩ := ih (n + 1) es2 hrec
        constructor
        · intro x hx
          rcases List.mem_cons.mp hx with hx | hx
          · rw [hx]
            exact ⟨le_of_eq hidx.symm, hpri, hact⟩
          · obtain ⟨h1, h2, h3⟩ := hall x hx
            exact ⟨Nat.le_of_succ_le h1, h2, h3⟩
        · refine List.Pairwise.cons ?_ hpw
          intro y hy
          have h1 := (hall y hy).1
          rw [hidx]
          omega

theorem mem_insertByPriority (e x : ActionEntry) :
    ∀ l : List ActionEntry, x ∈ insertByPriority e l → x = e ∨ x ∈ l := by
  intro l
  induction l with
  | nil =>
    intro hx
    simp only [insertByPriority] at hx
    rcases List.mem_cons.mp hx with h | h
    · left; exact h
    · cases h
  | cons y ys ih =>
    intro hx
    simp only [insertByPriority] at hx
    split at hx
    · rcases List.mem_cons.mp hx with h | h
      · right; rw [h]; exact List.mem_cons_self _ _
      · rcases ih h with h2 | h2
        · left; exact h2
        · right; exact List.mem_cons_of_mem _ h2
    · rcases List.mem_cons.mp hx with h | h
      · left; exact h
      · right; exact h

theorem insertByPriority_pairwise (e : ActionEntry) :
    ∀ l : List ActionEntry, l.Pairwise entryLexLT →
      (∀ x ∈ l, x.index < e.index) →
      (insertByPriority e l).Pairwise entryLexLT := by
  intro l
  induction l with
  | nil =>
    intro _ _
    simp only [insertByPriority]
    exact List.pairwise_singleton _ _
  | cons y ys ih =>
    intro hpw hidx
    rcases List.pairwise_cons.mp hpw with ⟨hy, hys⟩
    simp only [insertByPriority]
    split
    next hle =>
      refine List.pairwise_cons.mpr ⟨?_, ih hys ?_⟩
      · intro z hz
        rcases mem_insertByPriority e z ys hz with h | h
        · rw [h]
          rcases lt_or_eq_of_le hle with h2 | h2
          · exact Or.inl h2
          · exact Or.inr ⟨h2, hidx y (List.mem_cons_self y ys)⟩
        · exact hy z h
      · intro x hx
        exact hidx x (List.mem_cons_of_mem y hx)
    next hgt =>
      have hey : e.priority < y.priority := lt_of_not_le hgt
      refine List.pairwise_cons.mpr ⟨?_, hpw⟩
      intro z hz
      rcases List.mem_cons.mp hz with h | h
      · rw [h]
        exact Or.inl hey
      · exact Or.inl (lt_of_lt_of_le hey (entryLexLT_le (hy z h)))

theorem sortByPriority_pairwise :
    ∀ (l acc : List ActionEntry), acc.Pairwise entryLexLT →
      (∀ x ∈ acc, ∀ y ∈ l, x.index < y.index) →
      l.Pairwise (fun a b => a.index < b.index) →
      (l.foldl (fun acc e => insertByPriority e acc) acc).Pairwise
        entryLexLT := by
  intro l
  induction l with
  | nil => intro acc h _ _; exact h
  | cons e rest ih =>
    intro acc hacc hcross hl
    rcases List.pairwise_cons.mp hl with ⟨he, hrest⟩
    simp only [List.foldl_cons]
    refine ih (insertByPriority e acc) ?_ ?_ hrest
    · exact insertByPriority_pairwise e acc hacc
        (fun x hx => hcross x hx e (List.mem_cons_self e rest))
    · intro x hx y hy
      rcases mem_insertByPriority e x acc hx with h | h
      · rw [h]
        exact he y hy
      · exact hcross x h y (List.mem_cons_of_mem e hy)

theorem sortByPriority_pairwise_of (l : List ActionEntry)
    (hl : l.Pairwise (fun a b => a.index < b.index)) :
    (sortByPriority l).Pairwise entryLexLT :=
  sortByPriority_pairwise l [] List.Pairwise.nil
    (fun x hx => absurd hx (List.not_mem_nil x)) hl

theorem mem_sortByPriority (x : ActionEntry) :
    ∀ (l acc : List ActionEntry),
      x ∈ l.foldl (fun acc e => insertByPriority e acc) acc →
      x ∈ acc ∨ x ∈ l := by
  intro l
  induction l with
  | nil => intro acc h; left; exact h
  | cons e rest ih =>
    intro acc h
    simp only [List.foldl_cons] at h
    rcases ih (insertByPriority e acc) h with h2 | h2
    · rcases mem_insertByPriority e x acc h2 with h3 | h3
      · right; rw [h3]; exact List.mem_cons_self _ _
      · left; exact h3
    · right; exact List.mem_cons_of_mem e h2

/-- **C7 (counterexample).** The claim says an entry's priority equals the
integer value of its `priority` flag whenever the flag is present.  The
code computes `parseInt(...) || ndx`, so an explicit `priority=0` is falsy
and falls back to the positional index: on the mapping
`{task, quer, command:priority=0}` the `command` entry comes back with
priority 2 (its position), not the flag value 0. -/
theorem c7_counterexample :
    ¬ ∀ es, getActions
        [("task", .vnull), ("quer", .vnull), ("command:priority=0", .vnull)]
        analysisActionTable = .ok es →
      ∀ e ∈ es, e.priority = claimedPriority e := by
  intro hclaim
  have h := hclaim
      [⟨"task", .vnull, [], 0, 0⟩, ⟨"quer", .vnull, [], 1, 1⟩,
       ⟨"command", .vnull, [("priority", .vstr "0")], 2, 2⟩] rfl
      ⟨"command", .vnull, [("priority", .vstr "0")], 2, 2⟩
      (List.mem_cons_of_mem _ (List.mem_cons_of_mem _
        (List.mem_cons_self _ _)))
  exact absurd h (by decide)

/-- **C7 (amended).** Whenever `getActions` succeeds, every returned entry
has the priority the code computes — the parsed `priority` flag when it is
present and parses to a nonzero integer, and the positional index otherwise
(flag absent, unparseable, or zero) — and names an action of the table,
matched on the first four letters of its key, with every retained flag in
that action's legal-flag list (unknown actions are discarded by the final
filter); and the stream is stably sorted ascending by priority: any earlier
entry has strictly smaller priority, or equal priority and an earlier
position in the mapping. -/
theorem c7_actions_decoded (obj : List (String × Value))
    (table : List (String × List String)) (es : List ActionEntry)
    (h : getActions obj table = .ok es) :
    (∀ e ∈ es, e.priority = flagPriority e.flags e.index ∧ e.action ≠ "" ∧
      ∃ row ∈ table, row.1 = e.action ∧ ∀ p ∈ e.flags, p.1 ∈ row.2) ∧
    es.Pairwise entryLexLT := by
  cases hmk : mkActionEntries table 0 obj with
  | error err => simp [getActions, hmk] at h
  | ok es0 =>
    simp only [getActions, hmk, Except.ok.injEq] at h
    subst h
    obtain ⟨hall, hpw⟩ := mkActionEntries_spec table obj 0 es0 hmk
    constructor
    · intro e he
      rcases List.mem_filter.mp he with ⟨hmem, hpred⟩
      have hne : ¬ e.action = "" := by simpa using hpred
      rcases mem_sortByPriority e es0 [] hmem with h2 | h2
      · cases h2
      · obtain ⟨_, hpri, hact⟩ := hall e h2
        rcases hact with ⟨ha, _⟩ | hrow
        · exact absurd ha hne
        · exact ⟨hpri, hne, hrow⟩
    · exact List.Pairwise.sublist (List.filter_sublist _)
        (sortByPriority_pairwise_of es0 hpw)

/-- The action mapping the C7 witness decodes: three actions, the last
carrying an explicit nonzero priority that moves it to the front. -/
def actMapWitness : List (String × Value) :=
  [("task", .vnull), ("quer", .vnull), ("command:priority=-1", .vnull)]

/-- What `getActions` returns on `actMapWitness`. -/
def actEntriesWitness : List ActionEntry :=
  [⟨"command", .vnull, [("priority", .vstr "-1")], -1, 2⟩,
   ⟨"task", .vnull, [], 0, 0⟩,
   ⟨"quer", .vnull, [], 1, 1⟩]

theorem c7_actions_decoded_witness :
    (∀ e ∈ actEntriesWitness,
      e.priority = flagPriority e.flags e.index ∧ e.action ≠ "" ∧
      ∃ row ∈ analysisActionTable, row.1 = e.action ∧
        ∀ p ∈ e.flags, p.1 ∈ row.2) ∧
    actEntriesWitness.Pairwise entryLexLT :=
  c7_actions_decoded actMapWitness analysisActionTable actEntriesWitness rfl

/-! ### C5 — idempotence of the object merger on its source -/

/-- **C5 (counterexample).** The claim says re-merging a
`remove:`/`prepend:`-free source changes nothing.  Array sources are
appended on every merge (`target[key].push(...value)` without
deduplication): merging `{a:["x"]}` into `{}` once gives `{a:["x"]}`,
merging it again gives `{a:["x","x"]}`, which is not deeply equal. -/
theorem c5_counterexample :
    mergeObjects (.vobj []) (.vobj [("a", .varr [.vstr "x"])]) =
      .ok (.vobj [("a", .varr [.vstr "x"])]) ∧
    mergeObjects (.vobj [("a", .varr [.vstr "x"])])
        (.vobj [("a", .varr [.vstr "x"])]) =
      .ok (.vobj [("a", .varr [.vstr "x", .vstr "x"])]) ∧
    veq (.vobj [("a", .varr [.vstr "x", .vstr "x"])])
        (.vobj [("a", .varr [.vstr "x"])]) = false :=
  ⟨rfl, rfl, rfl⟩

mutual
/-- Source values for which the merge loop is a plain
overwrite-or-recurse, so that re-merging can be a no-op: strings without
the BEL separator, booleans, numbers, and objects of such values.  A
`null` source deletes the key it created on the next merge, an array is
re-appended, and a BEL string expands to an array. -/
def goodValue : Value → Bool
  | .vstr s => !(sContains s belChar)
  | .vbool _ => true
  | .vnum _ => true
  | .vobj vf => goodFields vf
  | .vnull => false
  | .varr _ => false

/-- Source fields with good values whose keys carry no `remove:` or
`prepend:` prefix and are unique at this level (as the entries of a
JavaScript object are). -/
def goodFields : List (String × Value) → Bool
  | [] => true
  | (k, v) :: rest =>
    !(sStartsWith k "remove:") && !(sStartsWith k "prepend:") &&
      (olookup rest k).isNone && goodValue v && goodFields rest
end

mutual
/-- A source value is saturated in a target slot when re-merging it there
changes nothing: a scalar is already the stored value, and an object
source faces either a non-object (which the loop leaves alone) or an
object whose fields it is saturated in. -/
def satV : Value → Option Value → Prop
  | .vstr s, cur => cur = some (.vstr s)
  | .vbool b, cur => cur = some (.vbool b)
  | .vnum n, cur => cur = some (.vnum n)
  | .vobj vf, cur =>
    match cur with
    | some (.vobj tf) => satFields vf tf
    | some _ => True
    | none => False
  | .vnull, _ => False
  | .varr _, _ => False

/-- Every source entry is saturated at its key of the target fields. -/
def satFields : List (String × Value) → List (String × Value) → Prop
  | [], _ => True
  | (k, v) :: rest, tf => satV v (olookup tf k) ∧ satFields rest tf
end

theorem goodFields_lookup (sf : List (String × Value)) :
    goodFields sf = true → ∀ k v, (k, v) ∈ sf → olookup sf k = some v := by
  induction sf with
  | nil => intro _ k v hm; cases hm
  | cons p rest ih =>
    obtain ⟨k0, v0⟩ := p
    intro hg k v hm
    simp only [goodFields, Bool.and_eq_true, Bool.not_eq_true'] at hg
    obtain ⟨⟨⟨⟨hrem, hpre⟩, hnone⟩, hgv⟩, hgrest⟩ := hg
    rcases List.mem_cons.mp hm with h | h
    · injection h with h1 h2
      subst h1
      subst h2
      simp [olookup]
    · by_cases hk : k0 = k
      · rw [hk, ih hgrest k v h] at hnone
        simp at hnone
      · simp only [olookup, if_neg hk]
        exact ih hgrest k v h

theorem satV_self (v : Value) : goodValue v = true → satV v (some v) := by
  induction v using goodValue.induct
    (motive_2 := fun sf => goodFields sf = true →
      ∀ tf, (∀ k w, (k, w) ∈ sf → olookup tf k = some w) → satFields sf tf)
    with
  | case1 s => intro _; exact rfl
  | case2 b => intro _; exact rfl
  | case3 n => intro _; exact rfl
  | case4 vf ih =>
    intro hg
    have hgf : goodFields vf = true := by simpa [goodValue] using hg
    show satFields vf vf
    exact ih hgf vf (goodFields_lookup vf hgf)
  | case5 => intro hg; simp [goodValue] at hg
  | case6 l => intro hg; simp [goodValue] at hg
  | case7 hg tf hlk => exact trivial
  | case8 k v rest ih1 ih2 hg tf hlk =>
    simp only [goodFields, Bool.and_eq_true, Bool.not_eq_true'] at hg
    obtain ⟨⟨⟨⟨hrem, hpre⟩, hnone⟩, hgv⟩, hgrest⟩ := hg
    show satV v (olookup tf k) ∧ satFields rest tf
    constructor
    · rw [hlk k v (List.mem_cons_self _ _)]
      exact ih1 hgv
    · exact ih2 hgrest tf (fun k2 w hw => hlk k2 w (List.mem_cons_of_mem _ hw))

theorem mergeAssign_sat (v : Value) :
    goodValue v = true →
    ∀ (tf : List (String × Value)) (k : String),
      sStartsWith k "prepend:" = false →
      ∃ tf', mergeAssign tf k v = .ok tf' ∧ satV v (olookup tf' k) ∧
        ∀ k2, k2 ≠ k → olookup tf' k2 = olookup tf k2 := by
  induction v using goodValue.induct
    (motive_2 := fun sf => goodFields sf = true →
      ∀ tf, ∃ r, mergeFields tf sf = .ok r ∧ satFields sf r ∧
        ∀ k2, (olookup sf k2).isNone = true → olookup r k2 = olookup tf k2)
    with
  | case1 s =>
    intro hg tf k hk
    have hbel : sContains s belChar = false := by simpa [goodValue] using hg
    refine ⟨oset tf k (.vstr s), ?_, ?_, ?_⟩
    · simp [mergeAssign, hk, hbel]
    · show olookup (oset tf k (.vstr s)) k = some (.vstr s)
      exact olookup_oset_self tf k _
    · intro k2 hne
      exact olookup_oset_ne tf k k2 _ (Ne.symm hne)
  | case2 b =>
    intro _ tf k hk
    refine ⟨oset tf k (.vbool b), ?_, ?_, ?_⟩
    · cases holo : olookup tf k with
      | none => simp [mergeAssign, hk, holo, cloneV]
      | some w => simp [mergeAssign, hk, holo]
    · show olookup (oset tf k (.vbool b)) k = some (.vbool b)
      exact olookup_oset_self tf k _
    · intro k2 hne
      exact olookup_oset_ne tf k k2 _ (Ne.symm hne)
  | case3 n =>
    intro _ tf k hk
    refine ⟨oset tf k (.vnum n), ?_, ?_, ?_⟩
    · cases holo : olookup tf k with
      | none => simp [mergeAssign, hk, holo, cloneV]
      | some w => simp [mergeAssign, hk, holo]
    · show olookup (oset tf k (.vnum n)) k = some (.vnum n)
      exact olookup_oset_self tf k _
    · intro k2 hne
      exact olookup_oset_ne tf k k2 _ (Ne.symm hne)
  | case4 vf ih =>
    intro hg tf k hk
    have hgf : goodFields vf = true := by simpa [goodValue] using hg
    cases holo : olookup tf k with
    | none =>
      refine ⟨oset tf k (.vobj vf), ?_, ?_, ?_⟩
      · simp [mergeAssign, hk, holo, cloneV]
      · rw [olookup_oset_self]
        exact satV_self _ hg
      · intro k2 hne
        exact olookup_oset_ne tf k k2 _ (Ne.symm hne)
    | some w =>
      cases w with
      | vobj tvf =>
        obtain ⟨m, hmeq, hmsat, _⟩ := ih hgf tvf
        refine ⟨oset tf k (.vobj m), ?_, ?_, ?_⟩
        · simp [mergeAssign, hk, holo, hmeq]
        · rw [olookup_oset_self]
          show satFields vf m
          exact hmsat
        · intro k2 hne
          exact olookup_oset_ne tf k k2 _ (Ne.symm hne)
      | vnull =>
        refine ⟨tf, by simp [mergeAssign, hk, holo], ?_, fun k2 _ => rfl⟩
        rw [holo]; exact trivial
      | vbool b =>
        refine ⟨tf, by simp [mergeAssign, hk, holo], ?_, fun k2 _ => rfl⟩
        rw [holo]; exact trivial
      | vnum n =>
        refine ⟨tf, by simp [mergeAssign, hk, holo], ?_, fun k2 _ => rfl⟩
        rw [holo]; exact trivial
      | vstr s =>
        refine ⟨tf, by simp [mergeAssign, hk, holo], ?_, fun k2 _ => rfl⟩
        rw [holo]; exact trivial
      | varr l =>
        refine ⟨tf, by simp [mergeAssign, hk, holo], ?_, fun k2 _ => rfl⟩
        rw [holo]; exact trivial
  | case5 => intro hg _ _ _; simp [goodValue] at hg
  | case6 l => intro hg _ _ _; simp [goodValue] at hg
  | case7 hg tf =>
    exact ⟨tf, rfl, trivial, fun _ _ => rfl⟩
  | case8 k v rest ih1 ih2 hg tf =>
    simp only [goodFields, Bool.and_eq_true, Bool.not_eq_true'] at hg
    obtain ⟨⟨⟨⟨hrem, hpre⟩, hnone⟩, hgv⟩, hgrest⟩ := hg
    obtain ⟨tf1, h1eq, h1sat, h1f⟩ := ih1 hgv tf k hpre
    obtain ⟨r, hreq, hrsat, hrf⟩ := ih2 hgrest tf1
    refine ⟨r, ?_, ?_, ?_⟩
    · simp [mergeFields, hrem, h1eq, hreq]
    · show satV v (olookup r k) ∧ satFields rest r
      constructor
      · rw [hrf k hnone]
        exact h1sat
      · exact hrsat
    · intro k2 hn2
      by_cases hke : k = k2
      · subst hke
        simp [olookup] at hn2
      · have hrest2 : (olookup rest k2).isNone = true := by
          simpa [olookup, hke] using hn2
        rw [hrf k2 hrest2, h1f k2 (Ne.symm hke)]

theorem mergeFields_sat (sf : List (String × Value)) :
    goodFields sf = true →
    ∀ tf, ∃ r, mergeFields tf sf = .ok r ∧ satFields sf r ∧
      ∀ k2, (olookup sf k2).isNone = true → olookup r k2 = olookup tf k2 := by
  induction sf with
  | nil =>
    intro _ tf
    exact ⟨tf, rfl, trivial, fun _ _ => rfl⟩
  | cons p rest ih =>
    obtain ⟨k, v⟩ := p
    intro hg tf
    simp only [goodFields, Bool.and_eq_true, Bool.not_eq_true'] at hg
    obtain ⟨⟨⟨⟨hrem, hpre⟩, hnone⟩, hgv⟩, hgrest⟩ := hg
    obtain ⟨tf1, h1eq, h1sat, h1f⟩ := mergeAssign_sat v hgv tf k hpre
    obtain ⟨r, hreq, hrsat, hrf⟩ := ih hgrest tf1
    refine ⟨r, ?_, ?_, ?_⟩
    · simp [mergeFields, hrem, h1eq, hreq]
    · show satV v (olookup r k) ∧ satFields rest r
      constructor
      · rw [hrf k hnone]
        exact h1sat
      · exact hrsat
    · intro k2 hn2
      by_cases hke : k = k2
      · subst hke
        simp [olookup] at hn2
      · have hrest2 : (olookup rest k2).isNone = true := by
          simpa [olookup, hke] using hn2
        rw [hrf k2 hrest2, h1f k2 (Ne.symm hke)]

theorem mergeAssign_replay (v : Value) :
    goodValue v = true →
    ∀ (tf : List (String × Value)) (k : String),
      sStartsWith k "prepend:" = false →
      satV v (olookup tf k) → mergeAssign tf k v = .ok tf := by
  induction v using goodValue.induct
    (motive_2 := fun sf => goodFields sf = true →
      ∀ tf, satFields sf tf → mergeFields tf sf = .ok tf)
    with
  | case1 s =>
    intro hg tf k hk hsat
    have hbel : sContains s belChar = false := by simpa [goodValue] using hg
    have hlk : olookup tf k = some (.vstr s) := hsat
    simp [mergeAssign, hk, hbel, oset_lookup_self tf k _ hlk]
  | case2 b =>
    intro _ tf k hk hsat
    have hlk : olookup tf k = some (.vbool b) := hsat
    simp [mergeAssign, hk, hlk, oset_lookup_self tf k _ hlk]
  | case3 n =>
    intro _ tf k hk hsat
    have hlk : olookup tf k = some (.vnum n) := hsat
    simp [mergeAssign, hk, hlk, oset_lookup_self tf k _ hlk]
  | case4 vf ih =>
    intro hg tf k hk hsat
    have hgf : goodFields vf = true := by simpa [goodValue] using hg
    cases holo : olookup tf k with
    | none =>
      rw [holo] at hsat
      exact False.elim hsat
    | some w =>
      cases w with
      | vobj tvf =>
        rw [holo] at hsat
        have hsf : satFields vf tvf := hsat
        have hm : mergeFields tvf vf = .ok tvf := ih hgf tvf hsf
        simp [mergeAssign, hk, holo, hm, oset_lookup_self tf k _ holo]
      | vnull => simp [mergeAssign, hk, holo]
      | vbool b => simp [mergeAssign, hk, holo]
      | vnum n => simp [mergeAssign, hk, holo]
      | vstr s => simp [mergeAssign, hk, holo]
      | varr l => simp [mergeAssign, hk, holo]
  | case5 => intro hg _ _ _ _; simp [goodValue] at hg
  | case6 l => intro hg _ _ _ _; simp [goodValue] at hg
  | case7 hg tf hsat => rfl
  | case8 k v rest ih1 ih2 hg tf hsat =>
    simp only [goodFields, Bool.and_eq_true, Bool.not_eq_true'] at hg
    obtain ⟨⟨⟨⟨hrem, hpre⟩, hnone⟩, hgv⟩, hgrest⟩ := hg
    have hsat2 : satV v (olookup tf k) ∧ satFields rest tf := hsat
    have h1 : mergeAssign tf k v = .ok tf := ih1 hgv tf k hpre hsat2.1
    have h2 : mergeFields tf rest = .ok tf := ih2 hgrest tf hsat2.2
    simp [mergeFields, hrem, h1, h2]

theorem mergeFields_replay (sf : List (String × Value)) :
    goodFields sf = true →
    ∀ tf, satFields sf tf → mergeFields tf sf = .ok tf := by
  induction sf with
  | nil => intro _ tf _; rfl
  | cons p rest ih =>
    obtain ⟨k, v⟩ := p
    intro hg tf hsat
    simp only [goodFields, Bool.and_eq_true, Bool.not_eq_true'] at hg
    obtain ⟨⟨⟨⟨hrem, hpre⟩, hnone⟩, hgv⟩, hgrest⟩ := hg
    have hsat2 : satV v (olookup tf k) ∧ satFields rest tf := hsat
    have h1 : mergeAssign tf k v = .ok tf := mergeAssign_replay v hgv tf k hpre hsat2.1
    have h2 : mergeFields tf rest = .ok tf := ih hgrest tf hsat2.2
    simp [mergeFields, hrem, h1, h2]

/-- **C5 (amended).** Re-merging the same source is the identity on the
first merge's result when the source is additionally free of `null`
values, arrays, and BEL-separator strings, and has unique keys at every
nesting level (`goodFields`): if `mergeObjects t s` returns `r`, then
`mergeObjects r s` returns `r` itself.  Without the extra conditions the
claim fails — see the counterexample for arrays, which are re-appended on
every merge. -/
theorem c5_merge_source_idempotent (t : Value) (sf : List (String × Value))
    (r : Value) (hg : goodFields sf = true)
    (h1 : mergeObjects t (.vobj sf) = .ok r) :
    mergeObjects r (.vobj sf) = .ok r := by
  cases t with
  | vobj tf =>
    cases hmf : mergeFields tf sf with
    | error e => simp [mergeObjects, hmf] at h1
    | ok rf =>
      simp only [mergeObjects, hmf, Except.ok.injEq] at h1
      subst h1
      obtain ⟨r2, hr2eq, hr2sat, _⟩ := mergeFields_sat sf hg tf
      rw [hmf] at hr2eq
      injection hr2eq with he
      subst he
      have hrep := mergeFields_replay sf hg rf hr2sat
      simp [mergeObjects, hrep]
  | vnull =>
    simp only [mergeObjects, Except.ok.injEq] at h1
    subst h1
    rfl
  | vbool b =>
    simp only [mergeObjects, Except.ok.injEq] at h1
    subst h1
    rfl
  | vnum n =>
    simp only [mergeObjects, Except.ok.injEq] at h1
    subst h1
    rfl
  | vstr s =>
    simp only [mergeObjects, Except.ok.injEq] at h1
    subst h1
    rfl
  | varr l =>
    simp only [mergeObjects, Except.ok.injEq] at h1
    subst h1
    rfl

theorem c5_merge_source_idempotent_witness :
    goodFields [("name", .vstr "gcc"),
      ("opts", .vobj [("std", .vstr "c17")])] = true ∧
    mergeObjects (.vobj [("name", .vstr "clang"), ("other", .vbool true)])
        (.vobj [("name", .vstr "gcc"),
          ("opts", .vobj [("std", .vstr "c17")])]) =
      .ok (.vobj [("name", .vstr "gcc"), ("other", .vbool true),
        ("opts", .vobj [("std", .vstr "c17")])]) ∧
    mergeObjects (.vobj [("name", .vstr "gcc"), ("other", .vbool true),
        ("opts", .vobj [("std", .vstr "c17")])])
        (.vobj [("name", .vstr "gcc"),
          ("opts", .vobj [("std", .vstr "c17")])]) =
      .ok (.vobj [("name", .vstr "gcc"), ("other", .vbool true),
        ("opts", .vobj [("std", .vstr "c17")])]) :=
  ⟨rfl, rfl,
    c5_merge_source_idempotent
      (.vobj [("name", .vstr "clang"), ("other", .vbool true)])
      [("name", .vstr "gcc"), ("opts", .vobj [("std", .vstr "c17")])]
      (.vobj [("name", .vstr "gcc"), ("other", .vbool true),
        ("opts", .vobj [("std", .vstr "c17")])]) rfl rfl⟩

end CppTools
